import Mathlib

/-!
Verification development for the `psdemuxer` MPEG-2 Program Stream demultiplexer.

The Python sources are shallowly embedded: bytes are `Nat` (with `< 256` as a
hypothesis where it matters), a `BufferedReader` file handle is a byte list with
a cursor, stateful parsing code becomes functions in `EStateM PyErr FileHandle`
(whose `Result` carries the state on both success and exception, matching
Python's exception semantics), and Python `try/finally` is the explicit
combinator `pmTryFinally`.
-/

/-- The exception kinds raised by the Python sources (`psdemuxer/exceptions.py`,
`psdemuxer/streams/__init__.py`, plus built-in `AssertionError`, `ValueError`,
`IndexError` and a marker for non-termination of an unbounded loop, used when a
fueled model of a `while` loop runs out of fuel). -/
inductive PyErr where
  | invalidFixedBits
  | invalidMarker
  | wrongPrivateStream
  | assertionFailed
  | valueError
  | indexError
  | nonTermination
  deriving DecidableEq, Repr

/-- A Python `BufferedReader`-style handle: immutable byte contents plus a read
cursor.  `seek` beyond the end is legal (reads then return nothing), as in
Python. -/
structure FileHandle where
  data : List Nat
  pos : Nat
  deriving DecidableEq, Repr

/-- The monad of the embedded stateful Python code: state is the file handle,
exceptions carry the state at raise time (as in Python). -/
abbrev PM (α : Type) : Type := EStateM PyErr FileHandle α

/-- `fh.read(n)`: returns up to `n` bytes from the cursor, advancing it by the
number of bytes actually returned. -/
def pmRead (n : Nat) : PM (List Nat) := fun s =>
  let got := (s.data.drop s.pos).take n
  .ok got ⟨s.data, s.pos + got.length⟩

/-- `fh.readinto(bytearray(n))`: reads up to `n` bytes; the tail of the buffer
that could not be filled keeps its zero initialization (Python `bytearray(n)`
is zero-filled and `readinto` leaves the unread tail untouched). -/
def pmReadinto (n : Nat) : PM (List Nat) := fun s =>
  let got := (s.data.drop s.pos).take n
  .ok (got ++ List.replicate (n - got.length) 0) ⟨s.data, s.pos + got.length⟩

/-- `fh.tell()`. -/
def pmTell : PM Nat := fun s => .ok s.pos s

/-- `fh.seek(p)` (absolute, `os.SEEK_SET`). -/
def pmSeekSet (p : Nat) : PM Unit := fun s => .ok () ⟨s.data, p⟩

/-- `fh.seek(n, os.SEEK_CUR)` with a non-negative displacement. -/
def pmSeekCur (n : Nat) : PM Unit := fun s => .ok () ⟨s.data, s.pos + n⟩

/-- `psdemuxer.utils.peek(fh, size)`: returns `size` bytes without moving the
cursor; its `assert len(data) == size` turns a short stream into an
`AssertionError`. -/
def pmPeek (n : Nat) : PM (List Nat) := fun s =>
  let got := (s.data.drop s.pos).take n
  if got.length = n then .ok got s else .error .assertionFailed s

/-- Raise an exception (state is kept, as in Python). -/
def pmThrow {α : Type} (e : PyErr) : PM α := fun s => .error e s

/-- Python `try: body finally: fin`: `fin` runs on both exits of `body`; an
exception raised by `fin` itself replaces the in-flight one. -/
def pmTryFinally {α : Type} (body : PM α) (fin : PM Unit) : PM α := fun s =>
  match body s with
  | .ok a s2 =>
    match fin s2 with
    | .ok _ s3 => .ok a s3
    | .error e2 s3 => .error e2 s3
  | .error e s2 =>
    match fin s2 with
    | .ok _ s3 => .error e s3
    | .error e2 s3 => .error e2 s3

/-- The state in which a `PM` computation ended, whether it returned or raised. -/
def resultState {α : Type} (r : EStateM.Result PyErr FileHandle α) : FileHandle :=
  match r with
  | .ok _ s => s
  | .error _ s => s

/-- Whether a `PM` computation returned normally. -/
def resultIsOk {α : Type} (r : EStateM.Result PyErr FileHandle α) : Bool :=
  match r with
  | .ok _ _ => true
  | .error _ _ => false

/-- The exception of a `PM` computation, if it raised one. -/
def resultErr {α : Type} (r : EStateM.Result PyErr FileHandle α) : Option PyErr :=
  match r with
  | .ok _ _ => none
  | .error e _ => some e

/-! ## Pack start header (src/psdemuxer/pack/__init__.py)

`PackStartHeader.__init__` reads 14 bytes and validates, in order: the fixed
bits `01` at the top of byte 4 (`InvalidFixedBitsException`), the six marker
bits (`InvalidMarkerException`), and the start code (an `assert`).  The
embedding below covers exactly that validation prefix (lines 25-41 of the
source); the remainder of `__init__` (stuffing skip, system header, PES loop)
runs only after it succeeds, so the failure behaviour claimed about marker bits
is decided entirely here. -/

/-- `data[i]` on the 14-byte `bytearray` (0 when out of range; the source always
indexes within the fixed 14-byte buffer). -/
def byteAt (data : List Nat) (i : Nat) : Nat := data.getD i 0

/-- `PackStartHeader.b_01`: `(data[4] & 0b11000000) >> 6`. -/
def packB01 (data : List Nat) : Nat := (byteAt data 4 &&& 0b11000000) >>> 6

/-- `PackStartHeader.marker_0`: `(data[4] & 0b00000100) >> 2`. -/
def packMarker0 (data : List Nat) : Nat := (byteAt data 4 &&& 0b00000100) >>> 2

/-- `PackStartHeader.marker_1`: `(data[6] & 0b00000100) >> 2`. -/
def packMarker1 (data : List Nat) : Nat := (byteAt data 6 &&& 0b00000100) >>> 2

/-- `PackStartHeader.marker_2`: `(data[8] & 0b00000100) >> 2`. -/
def packMarker2 (data : List Nat) : Nat := (byteAt data 8 &&& 0b00000100) >>> 2

/-- `PackStartHeader.marker_3`: `(data[9] & 0b00000001) >> 0`. -/
def packMarker3 (data : List Nat) : Nat := (byteAt data 9 &&& 0b00000001) >>> 0

/-- `PackStartHeader.marker_4`: `(data[12] & 0b00000010) >> 1`. -/
def packMarker4 (data : List Nat) : Nat := (byteAt data 12 &&& 0b00000010) >>> 1

/-- `PackStartHeader.marker_5`: `(data[12] & 0b00000001) >> 0`. -/
def packMarker5 (data : List Nat) : Nat := (byteAt data 12 &&& 0b00000001) >>> 0

/-- The validation prefix of `PackStartHeader.__init__` applied to the 14
header bytes: fixed bits `01` first, then the six markers, then the start-code
assertion. -/
def packStartHeaderValidate (data : List Nat) : Except PyErr Unit :=
  if packB01 data ≠ 0b01 then .error .invalidFixedBits
  else if packMarker0 data = 0 ∨ packMarker1 data = 0 ∨ packMarker2 data = 0 ∨
      packMarker3 data = 0 ∨ packMarker4 data = 0 ∨ packMarker5 data = 0 then
    .error .invalidMarker
  else if data.take 4 ≠ [0x00, 0x00, 0x01, 0xBA] then .error .assertionFailed
  else .ok ()

/-- The byte index and the bit-clearing mask of each of the six marker bits of
the pack header, in the order `marker_0 .. marker_5` (byte 4 bit 2, byte 6 bit
2, byte 8 bit 2, byte 9 bit 0, byte 12 bit 1, byte 12 bit 0, LSB=0 numbering of
the code's masks). -/
def packMarkerSpot (j : Nat) : Nat × Nat :=
  match j with
  | 0 => (4, 0xFB)
  | 1 => (6, 0xFB)
  | 2 => (8, 0xFB)
  | 3 => (9, 0xFE)
  | 4 => (12, 0xFD)
  | _ => (12, 0xFE)

/-- Flip marker bit `j` of a 14-byte pack header from 1 to 0 (bitwise AND of
the selected byte with the complement mask). -/
def clearPackMarker (j : Nat) (data : List Nat) : List Nat :=
  let (i, m) := packMarkerSpot j
  data.set i (byteAt data i &&& m)

/-! ## PS2 PCM reinterleave (src/psdemuxer/streams/private/ps2pcm.py)

`reinterleave(data)` is
`np.frombuffer(data, dtype=np.uint16).reshape(2, -1).transpose(1, 0).reshape(-1).tobytes()`:
the byte string is viewed as native (little-endian) 16-bit samples, split into
two equal halves, and the halves are interleaved sample by sample. -/

/-- `np.frombuffer(data, dtype=np.uint16)`: consecutive byte pairs as
little-endian 16-bit values. -/
def bytesToU16 : List Nat → List Nat
  | b0 :: b1 :: rest => (b0 + 256 * b1) :: bytesToU16 rest
  | _ => []

/-- `.tobytes()` of a uint16 array: little-endian byte pairs. -/
def u16ToBytes : List Nat → List Nat
  | [] => []
  | v :: rest => (v % 256) :: (v / 256) :: u16ToBytes rest

/-- Interleave two lists element by element (the flattened transpose of a
2-row matrix). -/
def interleave2 : List Nat → List Nat → List Nat
  | a :: as_, b :: bs => a :: b :: interleave2 as_ bs
  | _, _ => []

/-- `reinterleave` from `ps2pcm.py`: reshape the uint16 view to 2 rows
(regardless of the stream's channel count), transpose, flatten, serialize. -/
def reinterleave (data : List Nat) : List Nat :=
  let u := bytesToU16 data
  let rows := u.length / 2
  u16ToBytes (interleave2 (u.take rows) (u.drop rows))

/-- Round-robin interleave of `n` lists (flattened transpose of an `n`-row
matrix whose rows are the elements of `chans`). -/
def interleaveN (chans : List (List Nat)) : Nat → List Nat
  | 0 => []
  | fuel + 1 =>
    if chans.any (·.isEmpty) ∨ chans.isEmpty then []
    else chans.map (·.headD 0) ++ interleaveN (chans.map (·.tail)) fuel

/-- Split a list into consecutive chunks of length `k`. -/
def chunksOf (k : Nat) : List Nat → Nat → List (List Nat)
  | [], _ => []
  | l, 0 => [l]
  | l, fuel + 1 =>
    if l.length ≤ k ∨ k = 0 then [l]
    else l.take k :: chunksOf k (l.drop k) fuel

/-- Modelled from the spec's description of multi-channel reinterleaving (the
sentence the claim quotes): group `num_channels * 0x200` bytes, reshape to
`(num_channels, 0x200/2)` 16-bit samples, transpose to `(samples,
num_channels)`, flatten, serialize little-endian. -/
def reinterleaveSpec (numChannels : Nat) (data : List Nat) : List Nat :=
  let u := bytesToU16 data
  let perChan := u.length / numChannels
  let rows := chunksOf perChan u numChannels
  u16ToBytes (interleaveN rows (perChan + 1))

/-- A concrete 4-channel interleave block (`4 * 0x200` bytes): every byte of
channel `c`'s `0x200`-byte chunk is the value `c`. -/
def fourChanBlock : List Nat := (List.range 2048).map (fun i => i / 512)

/-! ## Helper lemmas on `byteAt` and `List.set` -/

theorem byteAt_set_self (l : List Nat) (i v : Nat) (h : i < l.length) :
    byteAt (l.set i v) i = v := by
  simp [byteAt, List.getD, h]

theorem byteAt_set_ne (l : List Nat) (i j v : Nat) (h : i ≠ j) :
    byteAt (l.set i v) j = byteAt l j := by
  simp [byteAt, List.getD, List.getElem?_set_ne h]

/-- C4: for every 14-byte pack header that is otherwise valid (start code
`00 00 01 BA`, fixed bits `01` at the top of byte 4, all six markers set),
clearing any single one of the six marker bits makes the pack header
validation of `PackStartHeader.__init__` fail with the `InvalidMarker` error. -/
theorem pack_marker_flip_fails (data : List Nat) (h14 : data.length = 14)
    (hsc : data.take 4 = [0x00, 0x00, 0x01, 0xBA]) (hb : packB01 data = 0b01)
    (hm0 : packMarker0 data = 1) (hm1 : packMarker1 data = 1)
    (hm2 : packMarker2 data = 1) (hm3 : packMarker3 data = 1)
    (hm4 : packMarker4 data = 1) (hm5 : packMarker5 data = 1)
    (j : Nat) (hj : j < 6) :
    packStartHeaderValidate (clearPackMarker j data) = .error .invalidMarker := by
  simp only [packB01] at hb
  interval_cases j
  · have e4 : byteAt (data.set 4 (byteAt data 4 &&& 0xFB)) 4 = byteAt data 4 &&& 0xFB :=
      byteAt_set_self _ _ _ (by omega)
    unfold clearPackMarker packMarkerSpot
    simp only [packStartHeaderValidate, packB01, packMarker0, e4, Nat.and_assoc]
    simp [hb, (by decide : (251:Nat) &&& 192 = 192), (by decide : (251:Nat) &&& 4 = 0)]
  · have e6 : byteAt (data.set 6 (byteAt data 6 &&& 0xFB)) 6 = byteAt data 6 &&& 0xFB :=
      byteAt_set_self _ _ _ (by omega)
    have e4 : byteAt (data.set 6 (byteAt data 6 &&& 0xFB)) 4 = byteAt data 4 :=
      byteAt_set_ne _ _ _ _ (by omega)
    unfold clearPackMarker packMarkerSpot
    simp only [packStartHeaderValidate, packB01, packMarker0, packMarker1, e4, e6,
      Nat.and_assoc]
    simp [hb, (by decide : (251:Nat) &&& 4 = 0)]
  · have e8 : byteAt (data.set 8 (byteAt data 8 &&& 0xFB)) 8 = byteAt data 8 &&& 0xFB :=
      byteAt_set_self _ _ _ (by omega)
    have e4 : byteAt (data.set 8 (byteAt data 8 &&& 0xFB)) 4 = byteAt data 4 :=
      byteAt_set_ne _ _ _ _ (by omega)
    unfold clearPackMarker packMarkerSpot
    simp only [packStartHeaderValidate, packB01, packMarker2, e4, e8, Nat.and_assoc]
    simp [hb, (by decide : (251:Nat) &&& 4 = 0)]
  · have e9 : byteAt (data.set 9 (byteAt data 9 &&& 0xFE)) 9 = byteAt data 9 &&& 0xFE :=
      byteAt_set_self _ _ _ (by omega)
    have e4 : byteAt (data.set 9 (byteAt data 9 &&& 0xFE)) 4 = byteAt data 4 :=
      byteAt_set_ne _ _ _ _ (by omega)
    unfold clearPackMarker packMarkerSpot
    simp only [packStartHeaderValidate, packB01, packMarker3, e4, e9, Nat.and_assoc]
    simp [hb, (by decide : (254:Nat) &&& 1 = 0)]
  · have e12 : byteAt (data.set 12 (byteAt data 12 &&& 0xFD)) 12 = byteAt data 12 &&& 0xFD :=
      byteAt_set_self _ _ _ (by omega)
    have e4 : byteAt (data.set 12 (byteAt data 12 &&& 0xFD)) 4 = byteAt data 4 :=
      byteAt_set_ne _ _ _ _ (by omega)
    unfold clearPackMarker packMarkerSpot
    simp only [packStartHeaderValidate, packB01, packMarker4, e4, e12, Nat.and_assoc]
    simp [hb, (by decide : (253:Nat) &&& 2 = 0)]
  · have e12 : byteAt (data.set 12 (byteAt data 12 &&& 0xFE)) 12 = byteAt data 12 &&& 0xFE :=
      byteAt_set_self _ _ _ (by omega)
    have e4 : byteAt (data.set 12 (byteAt data 12 &&& 0xFE)) 4 = byteAt data 4 :=
      byteAt_set_ne _ _ _ _ (by omega)
    unfold clearPackMarker packMarkerSpot
    simp only [packStartHeaderValidate, packB01, packMarker5, e4, e12, Nat.and_assoc]
    simp [hb, (by decide : (254:Nat) &&& 1 = 0)]

/-- Witness for C4: the concrete pack header of spec scenario S1 with its
marker bit `marker_0` cleared fails with `InvalidMarker`. -/
theorem pack_marker_flip_fails_witness :
    packStartHeaderValidate
      (clearPackMarker 0
        [0x00, 0x00, 0x01, 0xBA, 0x44, 0x00, 0x04, 0x00, 0x04, 0x01, 0x01, 0x89, 0xC3, 0xF8]) =
      .error .invalidMarker :=
  pack_marker_flip_fails
    [0x00, 0x00, 0x01, 0xBA, 0x44, 0x00, 0x04, 0x00, 0x04, 0x01, 0x01, 0x89, 0xC3, 0xF8]
    (by decide) (by decide) (by decide) (by decide) (by decide) (by decide)
    (by decide) (by decide) (by decide) 0 (by decide)

set_option maxRecDepth 100000 in
/-- C9: the claim's reinterleaving law fails for more than two channels: on a
concrete 4-channel interleave block (`4 * 0x200` bytes), the code's
`reinterleave` (which reshapes to 2 rows regardless of the channel count) does
not produce the `(num_channels, 0x200/2)`-reshape-transpose-flatten result the
claim describes. -/
theorem reinterleave_four_channel_mismatch :
    reinterleave fourChanBlock ≠ reinterleaveSpec 4 fourChanBlock := by
  decide

/-! ## PES header sub-parsers (src/psdemuxer/pack/pes/)

Each class `X` of the source becomes a structure holding the raw bytes its
constructor `readinto`s, with the bit-field properties as accessor functions,
and a function `parseX : PM X` mirroring the constructor's reads and checks. -/

/-- `FlagPTS` (ptsdts.py): the 5-byte PTS-only sub-header. -/
structure FlagPTS where
  data : List Nat
  deriving DecidableEq, Repr

/-- `FlagPTS.b_0010`: `(data[0] & 0b11110000) >> 4`. -/
def FlagPTS.b0010 (f : FlagPTS) : Nat := (byteAt f.data 0 &&& 0b11110000) >>> 4

/-- `FlagPTS.pts`: the 33-bit timestamp assembled from the five bytes. -/
def FlagPTS.pts (f : FlagPTS) : Nat :=
  ((byteAt f.data 0 &&& 0b00001110) >>> 1) <<< 30 |||
  ((byteAt f.data 1 &&& 0b11111111) >>> 0) <<< 22 |||
  ((byteAt f.data 2 &&& 0b11111110) >>> 1) <<< 15 |||
  ((byteAt f.data 3 &&& 0b11111111) >>> 0) <<< 7 |||
  ((byteAt f.data 4 &&& 0b11111110) >>> 1) <<< 0

/-- `FlagPTS.c0`: the marker bit `(data[0] & 0b00000001) >> 0`. -/
def FlagPTS.c0 (f : FlagPTS) : Nat := (byteAt f.data 0 &&& 0b00000001) >>> 0

/-- `FlagPTS.c1`: the marker bit `(data[2] & 0b00000001) >> 0`. -/
def FlagPTS.c1 (f : FlagPTS) : Nat := (byteAt f.data 2 &&& 0b00000001) >>> 0

/-- `FlagPTS.c2`: the marker bit `(data[4] & 0b00000001) >> 0`. -/
def FlagPTS.c2 (f : FlagPTS) : Nat := (byteAt f.data 4 &&& 0b00000001) >>> 0

/-- `FlagPTS.__init__`: read 5 bytes; reject a wrong `0010` prefix with
`InvalidFixedBitsException`.  (The marker bits `c0`, `c1`, `c2` are defined as
properties but never checked by the source.) -/
def parseFlagPTS : PM FlagPTS := do
  let d ← pmReadinto 5
  let f : FlagPTS := ⟨d⟩
  if f.b0010 ≠ 0b0010 then pmThrow .invalidFixedBits
  pure f

/-- `FlagPTSDTS` (ptsdts.py): the 10-byte PTS+DTS sub-header. -/
structure FlagPTSDTS where
  data : List Nat
  deriving DecidableEq, Repr

/-- `FlagPTSDTS.b_0011`: `(data[0] & 0b11110000) >> 4`. -/
def FlagPTSDTS.b0011 (f : FlagPTSDTS) : Nat := (byteAt f.data 0 &&& 0b11110000) >>> 4

/-- `FlagPTSDTS.b_0001`: `(data[5] & 0b11110000) >> 4`. -/
def FlagPTSDTS.b0001 (f : FlagPTSDTS) : Nat := (byteAt f.data 5 &&& 0b11110000) >>> 4

/-- `FlagPTSDTS.__init__`: read 10 bytes; reject wrong `0011`/`0001` prefixes
with `InvalidFixedBitsException`. -/
def parseFlagPTSDTS : PM FlagPTSDTS := do
  let d ← pmReadinto 10
  let f : FlagPTSDTS := ⟨d⟩
  if f.b0011 ≠ 0b0011 ∨ f.b0001 ≠ 0b0001 then pmThrow .invalidFixedBits
  pure f

/-- `FlagESCR` (escr.py): 6 bytes, no checks. -/
structure FlagESCR where
  data : List Nat
  deriving DecidableEq, Repr

/-- `FlagESCR.__init__`. -/
def parseFlagESCR : PM FlagESCR := do
  let d ← pmReadinto 6
  pure ⟨d⟩

/-- `FlagESRate` (esrate.py): 3 bytes, no checks. -/
structure FlagESRate where
  data : List Nat
  deriving DecidableEq, Repr

/-- `FlagESRate.__init__`. -/
def parseFlagESRate : PM FlagESRate := do
  let d ← pmReadinto 3
  pure ⟨d⟩

/-- The 7-variant tagged union selected by the top 3 bits of the DSM
trick-mode byte (dms.py). -/
inductive DMSTrickMode where
  | fastForward (data : List Nat)
  | slowMotion (data : List Nat)
  | freezeFrame (data : List Nat)
  | fastReverse (data : List Nat)
  | slowReverse (data : List Nat)
  | reservedMode (data : List Nat)
  deriving DecidableEq, Repr

/-- `DMSTrickModeControl` (dms.py): 1 byte, dispatching on its top 3 bits. -/
structure DMSTrickModeControl where
  data : List Nat
  tmc : DMSTrickMode
  deriving DecidableEq, Repr

/-- `DMSTrickModeControl.__init__`: read 1 byte, build the variant; no checks. -/
def parseDMSTrickModeControl : PM DMSTrickModeControl := do
  let d ← pmReadinto 1
  let tag := (byteAt d 0 &&& 0b11100000) >>> 5
  let tmc : DMSTrickMode :=
    if tag = 0b000 then .fastForward d
    else if tag = 0b001 then .slowMotion d
    else if tag = 0b010 then .freezeFrame d
    else if tag = 0b011 then .fastReverse d
    else if tag = 0b100 then .slowReverse d
    else .reservedMode d
  pure ⟨d, tmc⟩

/-- `AdditionalCopyInfoFlag` (copy.py): 1 byte; its top bit is a marker. -/
structure AdditionalCopyInfoFlag where
  data : List Nat
  deriving DecidableEq, Repr

/-- `AdditionalCopyInfoFlag.__init__`: read 1 byte; `InvalidMarkerException`
if the marker bit `(data[0] & 0b10000000) >> 7` is 0. -/
def parseAdditionalCopyInfoFlag : PM AdditionalCopyInfoFlag := do
  let d ← pmReadinto 1
  if (byteAt d 0 &&& 0b10000000) >>> 7 = 0 then pmThrow .invalidMarker
  pure ⟨d⟩

/-- `CRCFlag` (crc.py): 2 bytes, no checks. -/
structure CRCFlag where
  data : List Nat
  deriving DecidableEq, Repr

/-- `CRCFlag.__init__`. -/
def parseCRCFlag : PM CRCFlag := do
  let d ← pmReadinto 2
  pure ⟨d⟩

/-- `PrivateData` (extension.py): 16 bytes, no checks. -/
structure PrivateData where
  data : List Nat
  deriving DecidableEq, Repr

/-- `PrivateData.__init__`. -/
def parsePrivateData : PM PrivateData := do
  let d ← pmReadinto 16
  pure ⟨d⟩

/-- `ProgramPacketSequenceCounter` (sequence.py): 2 bytes with 2 marker bits. -/
structure ProgramPacketSequenceCounter where
  data : List Nat
  deriving DecidableEq, Repr

/-- `ProgramPacketSequenceCounter.__init__`: read 2 bytes;
`InvalidMarkerException` if either top bit is 0. -/
def parseProgramPacketSequenceCounter : PM ProgramPacketSequenceCounter := do
  let d ← pmReadinto 2
  if (byteAt d 0 &&& 0b10000000) >>> 7 = 0 ∨ (byteAt d 1 &&& 0b10000000) >>> 7 = 0 then
    pmThrow .invalidMarker
  pure ⟨d⟩

/-- `PSTDBuffer` (stdbuf.py): 2 bytes with fixed bits `01`. -/
structure PSTDBuffer where
  data : List Nat
  deriving DecidableEq, Repr

/-- `PSTDBuffer.__init__`: read 2 bytes; `InvalidFixedBitsException` if the
top two bits are not `01`. -/
def parsePSTDBuffer : PM PSTDBuffer := do
  let d ← pmReadinto 2
  if (byteAt d 0 &&& 0b11000000) >>> 6 ≠ 0b01 then pmThrow .invalidFixedBits
  pure ⟨d⟩

/-- `TrefExtension` (extension.py): 5 bytes with 3 marker bits (the low bit of
bytes 0, 2 and 4), all checked. -/
structure TrefExtension where
  data : List Nat
  deriving DecidableEq, Repr

/-- `TrefExtension.__init__`: read 5 bytes; `InvalidMarkerException` if any of
the three markers is 0. -/
def parseTrefExtension : PM TrefExtension := do
  let d ← pmReadinto 5
  if (byteAt d 0 &&& 0b00000001) >>> 0 = 0 ∨ (byteAt d 2 &&& 0b00000001) >>> 0 = 0 ∨
      (byteAt d 4 &&& 0b00000001) >>> 0 = 0 then
    pmThrow .invalidMarker
  pure ⟨d⟩

/-- `StreamIdExtension` (extension.py): no reads, borrows the parent's bytes. -/
structure StreamIdExtension where
  data : List Nat
  deriving DecidableEq, Repr

/-- `StreamIdExtensionReserved` (extension.py): borrows the parent's bytes and
parses a `TrefExtension` when `tref_extension_flag == 0`. -/
structure StreamIdExtensionReserved where
  data : List Nat
  trefExt : Option TrefExtension
  deriving DecidableEq, Repr

/-- `StreamIdExtensionReserved.tref_extension_flag`: `(data[1] & 1) >> 0`. -/
def StreamIdExtensionReserved.trefExtensionFlag (x : StreamIdExtensionReserved) : Nat :=
  (byteAt x.data 1 &&& 0b00000001) >>> 0

/-- `StreamIdExtensionReserved.__init__`. -/
def parseStreamIdExtensionReserved (data : List Nat) : PM StreamIdExtensionReserved := do
  if (byteAt data 1 &&& 0b00000001) >>> 0 = 0 then
    let t ← parseTrefExtension
    pure ⟨data, some t⟩
  else
    pure ⟨data, none⟩

/-- `Extension2` (extension.py): 2 bytes, a marker, then one of the two
stream-id-extension variants and a possible 5-byte reserved skip. -/
structure Extension2 where
  data : List Nat
  sie : Option StreamIdExtension
  sieReserved : Option StreamIdExtensionReserved
  deriving DecidableEq, Repr

/-- `Extension2.__init__`: read 2 bytes; `InvalidMarkerException` if the top
bit of byte 0 is 0; then branch on `stream_id_extension_flag`, and skip 5
reserved bytes when the reserved variant has `tref_extension_flag == 0`. -/
def parseExtension2 : PM Extension2 := do
  let d ← pmReadinto 2
  if (byteAt d 0 &&& 0b10000000) >>> 7 = 0 then pmThrow .invalidMarker
  if (byteAt d 1 &&& 0b10000000) >>> 7 = 0 then
    pure ⟨d, some ⟨d⟩, none⟩
  else
    let r ← parseStreamIdExtensionReserved d
    let n3 := if r.trefExtensionFlag = 0 then 5 else 0
    if n3 > 0 then pmSeekCur n3
    pure ⟨d, none, some r⟩

/-- `ExtensionFlag` (extension.py): 1 flag byte gating private data, a
sequence counter, a P-STD buffer descriptor and an extension-2 block; its
`pack_header_field_flag` must be 0 (an `assert` in the source). -/
structure ExtensionFlag where
  data : List Nat
  privData : Option PrivateData
  ppsc : Option ProgramPacketSequenceCounter
  pstd : Option PSTDBuffer
  ext2 : Option Extension2
  deriving DecidableEq, Repr

/-- `ExtensionFlag.__init__`. -/
def parseExtensionFlag : PM ExtensionFlag := do
  let d ← pmReadinto 1
  let pd ← if (byteAt d 0 &&& 0b10000000) >>> 7 = 0x1 then
      (some <$> parsePrivateData) else pure none
  if (byteAt d 0 &&& 0b01000000) >>> 6 ≠ 0 then pmThrow .assertionFailed
  let sc ← if (byteAt d 0 &&& 0b00100000) >>> 5 = 0b1 then
      (some <$> parseProgramPacketSequenceCounter) else pure none
  let pstd ← if (byteAt d 0 &&& 0b00010000) >>> 4 = 0b1 then
      (some <$> parsePSTDBuffer) else pure none
  let e2 ← if (byteAt d 0 &&& 0b00000001) >>> 0 = 0b1 then
      (some <$> parseExtension2) else pure none
  pure ⟨d, pd, sc, pstd, e2⟩

/-! ## FlagData (src/psdemuxer/pack/pes/flagdata.py) -/

/-- `FlagData`: the 3 flag bytes, the conditionally present sub-sections and
the stuffing bytes consumed at the end of the optional header area. -/
structure FlagData where
  data : List Nat
  ptsDts : Option (FlagPTS ⊕ FlagPTSDTS)
  escr : Option FlagESCR
  esRate : Option FlagESRate
  dms : Option DMSTrickModeControl
  copyInfo : Option AdditionalCopyInfoFlag
  crc : Option CRCFlag
  ext : Option ExtensionFlag
  stuffingBytes : List Nat
  deriving DecidableEq, Repr

/-- `FlagData.b_10`: `(data[0] & 0b11000000) >> 6`. -/
def FlagData.b10 (f : FlagData) : Nat := (byteAt f.data 0 &&& 0b11000000) >>> 6

/-- `FlagData.pts_dts_flags`: `(data[1] & 0b11000000) >> 6`. -/
def FlagData.ptsDtsFlags (f : FlagData) : Nat := (byteAt f.data 1 &&& 0b11000000) >>> 6

/-- `FlagData.escr_flag`: `(data[1] & 0b00100000) >> 5`. -/
def FlagData.escrFlag (f : FlagData) : Nat := (byteAt f.data 1 &&& 0b00100000) >>> 5

/-- `FlagData.es_rate_flag`: `(data[1] & 0b00010000) >> 4`. -/
def FlagData.esRateFlag (f : FlagData) : Nat := (byteAt f.data 1 &&& 0b00010000) >>> 4

/-- `FlagData.dsm_trick_mode_flag`: `(data[1] & 0b00001000) >> 3`. -/
def FlagData.dsmTrickModeFlag (f : FlagData) : Nat := (byteAt f.data 1 &&& 0b00001000) >>> 3

/-- `FlagData.additional_copy_info_flag`: `(data[1] & 0b00000100) >> 2`. -/
def FlagData.additionalCopyInfoFlag (f : FlagData) : Nat :=
  (byteAt f.data 1 &&& 0b00000100) >>> 2

/-- `FlagData.pes_crc_flag`: `(data[1] & 0b00000010) >> 1`. -/
def FlagData.pesCrcFlag (f : FlagData) : Nat := (byteAt f.data 1 &&& 0b00000010) >>> 1

/-- `FlagData.pes_extension_flag`: `(data[1] & 0b00000001) >> 0`. -/
def FlagData.pesExtensionFlag (f : FlagData) : Nat := (byteAt f.data 1 &&& 0b00000001) >>> 0

/-- `FlagData.pes_header_data_length`: `(data[2] & 0b11111111) >> 0`. -/
def FlagData.pesHeaderDataLength (f : FlagData) : Nat := (byteAt f.data 2 &&& 0b11111111) >>> 0

/-- `FlagData.__init__` (fh part): read the 3 flag bytes, reject a wrong `10`
prefix with `InvalidFixedBitsException`, parse each flagged sub-section in
source order (note: `pts_dts_flags` selects a parser only for `0b10` and
`0b11`; no other value is rejected), then consume and validate the stuffing
bytes (the three `assert` statements of the source). -/
def parseFlagData : PM FlagData := do
  let d ← pmReadinto 3
  let f0 : FlagData := ⟨d, none, none, none, none, none, none, none, []⟩
  if f0.b10 ≠ 0b10 then pmThrow .invalidFixedBits
  let pos ← pmTell
  let pdts ←
    if f0.ptsDtsFlags = 0b10 then (some ∘ Sum.inl) <$> parseFlagPTS
    else if f0.ptsDtsFlags = 0b11 then (some ∘ Sum.inr) <$> parseFlagPTSDTS
    else pure none
  let escr ← if f0.escrFlag = 0b1 then some <$> parseFlagESCR else pure none
  let esRate ← if f0.esRateFlag = 0b1 then some <$> parseFlagESRate else pure none
  let dms ← if f0.dsmTrickModeFlag = 0b1 then some <$> parseDMSTrickModeControl else pure none
  let copyInfo ←
    if f0.additionalCopyInfoFlag = 0b1 then some <$> parseAdditionalCopyInfoFlag else pure none
  let crc ← if f0.pesCrcFlag = 0x1 then some <$> parseCRCFlag else pure none
  let ext ← if f0.pesExtensionFlag = 0b1 then some <$> parseExtensionFlag else pure none
  let pos2 ← pmTell
  let bytesRead := pos2 - pos
  if (f0.pesHeaderDataLength : Int) - (bytesRead : Int) < 0 then pmThrow .assertionFailed
  let bytesLeft := f0.pesHeaderDataLength - bytesRead
  let stuffing ← pmRead bytesLeft
  if stuffing.length ≠ bytesLeft then pmThrow .assertionFailed
  if stuffing ≠ List.replicate bytesLeft 0xFF then pmThrow .assertionFailed
  pure { f0 with ptsDts := pdts, escr := escr, esRate := esRate, dms := dms,
                 copyInfo := copyInfo, crc := crc, ext := ext, stuffingBytes := stuffing }

/-- The value a `PM` computation returned, if it returned normally. -/
def resultVal {α : Type} (r : EStateM.Result PyErr FileHandle α) : Option α :=
  match r with
  | .ok a _ => some a
  | .error _ _ => none

/-- C3: refuted as stated.  A PES flag block whose `pts_dts_flags` field is
the forbidden value `0b01` (flag bytes `80 40 00`, so the fixed bits `10` are
valid) is accepted by `FlagData.__init__` without any error: neither branch of
the `pts_dts_flags` dispatch fires and no `InvalidFixedBitsException` is
raised, even though the source checks other fixed-bit fields and the standard
forbids `0b01`. -/
theorem flagdata_accepts_forbidden_pts_dts_01 :
    resultIsOk (parseFlagData ⟨[0x80, 0x40, 0x00], 0⟩) = true ∧
    (resultVal (parseFlagData ⟨[0x80, 0x40, 0x00], 0⟩)).map FlagData.ptsDtsFlags =
      some 0b01 := by
  constructor
  · rfl
  · rfl

/-- C7: refuted as stated.  A PTS-only sub-header whose prefix `0010` is valid
but whose three marker bits (the low bit of bytes 0, 2 and 4) are all 0
(bytes `20 00 00 00 00`) is accepted by `FlagPTS.__init__` without any error:
the source defines the marker accessors `c0`, `c1`, `c2` but never checks
them, although the sibling 40-bit block `TrefExtension` checks the identical
marker layout with `InvalidMarkerException`. -/
theorem flagpts_accepts_zero_markers :
    resultIsOk (parseFlagPTS ⟨[0x20, 0x00, 0x00, 0x00, 0x00], 0⟩) = true ∧
    (resultVal (parseFlagPTS ⟨[0x20, 0x00, 0x00, 0x00, 0x00], 0⟩)).map
        (fun f => (f.c0, f.c1, f.c2)) = some (0, 0, 0) := by
  constructor
  · rfl
  · rfl

/-! ## Private-stream recognizers and the MPEG-2 video walker entry

`DVDAC3Audio.__init__` (dvdac3.py), `PS2PCMAudio.__init__` (ps2pcm.py) and
`MPEG2Video.__init__` (mpeg2video.py) all save `fh.tell()` and restore it in a
`finally` block.  The PES metadata each receives is the fixed-size record the
index stores per packet. -/

/-- The per-PES record consumed by the recognizers: file offset (`pes.pos`),
`stream_id`, `header_length` and payload length (`pes_packet_data_bytes_n`). -/
structure PESPacketInfo where
  pos : Nat
  streamId : Nat
  headerLength : Nat
  payloadLength : Nat
  deriving DecidableEq, Repr

/-- `DVDAC3Audio`: the PES record, the `is_first` flag and the 4 header bytes
read from the payload start. -/
structure DVDAC3Audio where
  pes : PESPacketInfo
  isFirst : Bool
  data : List Nat
  deriving DecidableEq, Repr

/-- `DVDAC3Audio.stream_id`: `data[0]`, the first payload byte. -/
def DVDAC3Audio.streamId (a : DVDAC3Audio) : Nat := byteAt a.data 0

/-- `DVDAC3Audio.data_length`: `pes.pes_packet_data_bytes_n - ac3_header_length`
(Python int subtraction). -/
def DVDAC3Audio.dataLength (a : DVDAC3Audio) : Int := (a.pes.payloadLength : Int) - 4

/-- `DVDAC3Audio.__init__`: reject unless the PES is a `private_stream_1`
packet with `header_length == 0x11`; then, with the position saved and
restored by `try/finally`, read the 4 sub-stream header bytes at the payload
start and peek the 2 sync-word bytes; only for the first PES, reject unless
the sub-stream number is `0x80` and the sync word is `0B 77`. -/
def dvdac3Init (pes : PESPacketInfo) (isFirst : Bool) : PM DVDAC3Audio := do
  if ¬(pes.streamId = 0xBD ∧ pes.headerLength = 0x11) then pmThrow .wrongPrivateStream
  let pos ← pmTell
  pmTryFinally (do
      pmSeekSet (pes.pos + pes.headerLength)
      let d ← pmReadinto 4
      let a : DVDAC3Audio := ⟨pes, isFirst, d⟩
      let syncWord ← pmPeek 2
      if isFirst ∧ (¬ a.streamId = 0x80 ∨ ¬ syncWord = [0x0B, 0x77]) then
        pmThrow .wrongPrivateStream
      pure a)
    (pmSeekSet pos)

/-- `PS2PCMAudio`: the PES record, the `is_first` flag and the header bytes
(63 for the first PES, 23 afterwards). -/
structure PS2PCMAudio where
  pes : PESPacketInfo
  isFirst : Bool
  data : List Nat
  deriving DecidableEq, Repr

/-- `PS2PCMAudio.stream_id`: `data[:4]`. -/
def PS2PCMAudio.streamId4 (a : PS2PCMAudio) : List Nat := a.data.take 4

/-- `PS2PCMAudio.stream_audio_type`: `data[0x14]`. -/
def PS2PCMAudio.streamAudioType (a : PS2PCMAudio) : Nat := byteAt a.data 0x14

/-- `PS2PCMAudio.sshd`: `data[0x17:0x1B]`. -/
def PS2PCMAudio.sshd (a : PS2PCMAudio) : List Nat := (a.data.drop 0x17).take 4

/-- `PS2PCMAudio.audio_type`: little-endian 32-bit at `0x1F`. -/
def PS2PCMAudio.audioType (a : PS2PCMAudio) : Nat :=
  byteAt a.data 0x1F ||| byteAt a.data 0x20 <<< 8 |||
  byteAt a.data 0x21 <<< 16 ||| byteAt a.data 0x22 <<< 24

/-- `PS2PCMAudio.num_channels`: little-endian 32-bit at `0x27`. -/
def PS2PCMAudio.numChannels (a : PS2PCMAudio) : Nat :=
  byteAt a.data 0x27 ||| byteAt a.data 0x28 <<< 8 |||
  byteAt a.data 0x29 <<< 16 ||| byteAt a.data 0x2A <<< 24

/-- `PS2PCMAudio.interleave_size`: little-endian 32-bit at `0x2B`. -/
def PS2PCMAudio.interleaveSize (a : PS2PCMAudio) : Nat :=
  byteAt a.data 0x2B ||| byteAt a.data 0x2C <<< 8 |||
  byteAt a.data 0x2D <<< 16 ||| byteAt a.data 0x2E <<< 24

/-- `PS2PCMAudio.ssbd`: `data[0x37:0x3B]`. -/
def PS2PCMAudio.ssbd (a : PS2PCMAudio) : List Nat := (a.data.drop 0x37).take 4

/-- `PS2PCMAudio.total_audio_data_size`: little-endian 32-bit at `0x3B`. -/
def PS2PCMAudio.totalAudioDataSize (a : PS2PCMAudio) : Nat :=
  byteAt a.data 0x3B ||| byteAt a.data 0x3C <<< 8 |||
  byteAt a.data 0x3D <<< 16 ||| byteAt a.data 0x3E <<< 24

/-- `PS2PCMAudio.__init__`: with the position saved and restored by
`try/finally`, seek to the PES start, read the 63-byte (first) or 23-byte
(subsequent) header and run the detection predicate.  (`%` here is `Nat.mod`;
Python would raise `ZeroDivisionError` for `num_channels == 0`, an exception
that flows through the same `finally`.) -/
def ps2pcmInit (pes : PESPacketInfo) (isFirst : Bool) : PM PS2PCMAudio := do
  let headerLength := if isFirst then 0x3F else 0x17
  let pos ← pmTell
  pmTryFinally (do
      pmSeekSet pes.pos
      let d ← pmReadinto headerLength
      let a : PS2PCMAudio := ⟨pes, isFirst, d⟩
      if isFirst ∧ ¬(a.streamId4 = [0x00, 0x00, 0x01, 0xBD] ∧
          (a.streamAudioType = 0xA0 ∨ a.streamAudioType = 0xA1) ∧
          a.sshd = [0x53, 0x53, 0x68, 0x64] ∧
          (a.audioType = 0 ∨ a.audioType = 1 ∨ a.audioType = 2) ∧
          a.interleaveSize = 0x200 ∧
          a.ssbd = [0x53, 0x53, 0x62, 0x64] ∧
          a.totalAudioDataSize % (a.numChannels * 0x200) = 0) then
        pmThrow .wrongPrivateStream
      else if ¬isFirst ∧ ¬(a.streamId4 = [0x00, 0x00, 0x01, 0xBD] ∧
          (a.streamAudioType = 0xA0 ∨ a.streamAudioType = 0xA1)) then
        pmThrow .wrongPrivateStream
      pure a)
    (pmSeekSet pos)

/-- `sequence_header_code` (mpeg2video.py). -/
def seqHeaderCode : List Nat := [0x00, 0x00, 0x01, 0xB3]

/-- `sequence_end_code` (mpeg2video.py). -/
def seqEndCode : List Nat := [0x00, 0x00, 0x01, 0xB7]

/-- The `while next_bits == sequence_header_code` loop of
`MPEG2Video.__init__`, fueled.  `seqStep` stands for `Sequence(self, fh)` —
the claim about the constructor's frame effect holds for an arbitrary body, so
the model quantifies over it.  Exhausted fuel raises the `nonTermination`
marker (the Python loop would simply not return). -/
def mpegWalk (seqStep : PM Unit) (infoOnly : Bool) : Nat → List Nat → PM Unit
  | 0, _ => pmThrow .nonTermination
  | fuel + 1, nextBits =>
    if nextBits = seqHeaderCode then do
      seqStep
      let nb ← pmPeek 4
      if infoOnly then pure () else mpegWalk seqStep infoOnly fuel nb
    else if nextBits = seqEndCode then pure ()
    else pmThrow .assertionFailed

/-- `MPEG2Video.__init__`: with the position saved and restored by
`try/finally`, peek 4 bytes, assert the sequence header code, walk the
sequences (stopping early on `info_only`), and assert the sequence end code
when the loop leaves. -/
def mpeg2videoInit (seqStep : PM Unit) (fuel : Nat) (infoOnly : Bool) : PM Unit := do
  let pos ← pmTell
  pmTryFinally (do
      let nb ← pmPeek 4
      if ¬ nb = seqHeaderCode then pmThrow .assertionFailed
      mpegWalk seqStep infoOnly fuel nb)
    (pmSeekSet pos)

/-- The first element of a slice is the element at the slice's start. -/
theorem slice_byteAt_zero (l : List Nat) (p n : Nat) (hn : 0 < n) (hp : p < l.length) :
    byteAt ((l.drop p).take n) 0 = byteAt l p := by
  simp [byteAt, List.getD, List.getElem?_take, hn, List.getElem?_drop]

/-- C8 counterexample: the claim's condition for subsequent PES packets is
refuted at a concrete input.  A subsequent (`is_first = false`)
`private_stream_1` PES with `header_length == 0x11` whose first payload byte
is `0x00` (not `0x80`) is accepted by `DVDAC3Audio.__init__`, although the
claim says success requires the first payload byte to equal `0x80`. -/
theorem dvdac3_subsequent_ignores_substream_byte :
    resultIsOk (dvdac3Init ⟨0, 0xBD, 0x11, 20⟩ false ⟨List.replicate 23 0, 0⟩) = true := by
  rfl

/-- C8 (amended): under a file long enough for the recognizer's reads,
`DVDAC3Audio.__init__` succeeds iff the PES is `private_stream_1` with
`header_length == 0x11` and, only for the first PES, the first payload byte is
`0x80` and the two bytes at payload offset +4 are `0B 77`; every failure is
`WrongPrivateStream`; and on success `data_length = payload_length - 4`. -/
theorem dvdac3_recognition (pes : PESPacketInfo) (isFirst : Bool) (s : FileHandle)
    (hlen : pes.pos + pes.headerLength + 6 ≤ s.data.length) :
    (resultIsOk (dvdac3Init pes isFirst s) = true ↔
      (pes.streamId = 0xBD ∧ pes.headerLength = 0x11 ∧
        (isFirst = true →
          byteAt s.data (pes.pos + pes.headerLength) = 0x80 ∧
          (s.data.drop (pes.pos + pes.headerLength + 4)).take 2 = [0x0B, 0x77]))) ∧
    (resultErr (dvdac3Init pes isFirst s) = none ∨
      resultErr (dvdac3Init pes isFirst s) = some .wrongPrivateStream) ∧
    (∀ a, resultVal (dvdac3Init pes isFirst s) = some a →
      a.dataLength = (pes.payloadLength : Int) - 4) := by
  by_cases h1 : pes.streamId = 0xBD ∧ pes.headerLength = 0x11
  · have hd4 : ((s.data.drop (pes.pos + pes.headerLength)).take 4).length = 4 := by
      simp [List.length_take, List.length_drop]; omega
    have hpk : ((s.data.drop (pes.pos + pes.headerLength + 4)).take 2).length = 2 := by
      simp [List.length_take, List.length_drop]; omega
    have hb0 : byteAt ((s.data.drop (pes.pos + pes.headerLength)).take 4) 0 =
        byteAt s.data (pes.pos + pes.headerLength) :=
      slice_byteAt_zero _ _ _ (by omega) (by omega)
    obtain ⟨ha, hb⟩ := h1
    rw [hb] at hd4 hpk hb0 hlen ⊢
    simp only [dvdac3Init, ha, hb, not_true, bind, EStateM.bind, pmTell, pmTryFinally,
      pmSeekSet, pmReadinto, pmPeek, pmThrow, pure, EStateM.pure, if_false,
      ite_not, if_true, and_self, ite_true, not_false_eq_true]
    simp only [hd4, Nat.sub_self, List.replicate, List.append_nil]
    rw [if_pos hpk]
    cases isFirst with
    | false =>
      refine ⟨?_, ?_, ?_⟩ <;>
        simp [resultIsOk, resultErr, resultVal, DVDAC3Audio.streamId,
          DVDAC3Audio.dataLength, bind, EStateM.bind, EStateM.pure]
    | true =>
      by_cases hX : byteAt s.data (pes.pos + 17) = 128
      · by_cases hY : (s.data.drop (pes.pos + 17 + 4)).take 2 = [11, 119]
        · refine ⟨?_, ?_, ?_⟩ <;>
            simp [resultIsOk, resultErr, resultVal, DVDAC3Audio.streamId,
              DVDAC3Audio.dataLength, hb0, hX, hY, bind, EStateM.bind, EStateM.pure]
        · refine ⟨?_, ?_, ?_⟩ <;>
            simp [resultIsOk, resultErr, resultVal, DVDAC3Audio.streamId,
              DVDAC3Audio.dataLength, hb0, hX, hY, pmThrow, bind, EStateM.bind,
              EStateM.pure]
      · refine ⟨?_, ?_, ?_⟩ <;>
          simp [resultIsOk, resultErr, resultVal, DVDAC3Audio.streamId,
            DVDAC3Audio.dataLength, hb0, hX, pmThrow, bind, EStateM.bind, EStateM.pure]
  · simp only [dvdac3Init, h1, bind, EStateM.bind, pmThrow, ite_not, if_false]
    refine ⟨?_, ?_, ?_⟩
    · simp only [resultIsOk, Bool.false_eq_true, false_iff]
      intro hcon
      exact h1 ⟨hcon.1, hcon.2.1⟩
    · simp [resultErr]
    · simp [resultVal]

/-- Witness for C8: the amended characterization applied to a concrete first
PES whose payload carries the `0x80` sub-stream byte and the `0B 77` sync
word: recognition succeeds. -/
theorem dvdac3_recognition_witness :
    resultIsOk (dvdac3Init ⟨0, 0xBD, 0x11, 20⟩ true
      ⟨List.replicate 17 0 ++ [0x80, 0, 0, 0, 0x0B, 0x77], 0⟩) = true :=
  (dvdac3_recognition ⟨0, 0xBD, 0x11, 20⟩ true
      ⟨List.replicate 17 0 ++ [0x80, 0, 0, 0, 0x0B, 0x77], 0⟩ (by decide)).1.mpr
    (by refine ⟨rfl, rfl, fun _ => ⟨?_, ?_⟩⟩ <;> decide)

/-- After `try: body finally: fh.seek(p)`, the handle's position is `p`, no
matter how `body` ends. -/
theorem resultState_tryFinally_seek {α : Type} (body : PM α) (p : Nat) (s : FileHandle) :
    (resultState (pmTryFinally body (pmSeekSet p) s)).pos = p := by
  cases hbs : body s <;> simp [pmTryFinally, pmSeekSet, resultState, hbs]

/-- C10: the recognizer constructors `DVDAC3Audio.__init__` and
`PS2PCMAudio.__init__` and the walker constructor `MPEG2Video.__init__` leave
the shared file handle at the position it had on entry, in every outcome —
on success and on every exception (including `WrongPrivateStream`); for the
video walker this holds for an arbitrary sequence-parsing body `seqStep`. -/
theorem constructors_restore_position :
    (∀ (pes : PESPacketInfo) (isFirst : Bool) (s : FileHandle),
      (resultState (dvdac3Init pes isFirst s)).pos = s.pos) ∧
    (∀ (pes : PESPacketInfo) (isFirst : Bool) (s : FileHandle),
      (resultState (ps2pcmInit pes isFirst s)).pos = s.pos) ∧
    (∀ (seqStep : PM Unit) (fuel : Nat) (infoOnly : Bool) (s : FileHandle),
      (resultState (mpeg2videoInit seqStep fuel infoOnly s)).pos = s.pos) := by
  refine ⟨?_, ?_, ?_⟩
  · intro pes isFirst s
    by_cases h1 : pes.streamId = 0xBD ∧ pes.headerLength = 0x11
    · simp only [dvdac3Init, h1, not_true, bind, EStateM.bind, pmTell, pure,
        EStateM.pure, ite_not, if_true, and_self, not_false_eq_true]
      exact resultState_tryFinally_seek _ _ _
    · simp [dvdac3Init, h1, bind, EStateM.bind, pmThrow, resultState]
  · intro pes isFirst s
    simp only [ps2pcmInit, bind, EStateM.bind, pmTell, pure, EStateM.pure]
    exact resultState_tryFinally_seek _ _ _
  · intro seqStep fuel infoOnly s
    simp only [mpeg2videoInit, bind, EStateM.bind, pmTell, pure, EStateM.pure]
    exact resultState_tryFinally_seek _ _ _

/-! ## Segmented stream reader (src/psdemuxer/io/__init__.py)

`StreamReader` exposes a virtual byte stream over a list of `SegmentInfo`.
Each segment's underlying handle is modelled by its byte contents: before
every physical read the code seeks that handle to
`real_address + offset`, so the handle's own cursor never influences the
result.  Reader state (`self.position`, `self.offset`) is `Int`-valued, as
Python's arithmetic can drive both negative; Python's negative list indexing
is `pyGet`. -/

/-- `SegmentInfo`: underlying handle contents, physical offset, virtual
offset, length. -/
structure SegmentInfo where
  fhData : List Nat
  realAddress : Nat
  virtualStart : Nat
  dataSize : Nat
  deriving DecidableEq, Repr

/-- Python list indexing: non-negative indexes from the front, negative
indexes from the back, `IndexError` (`none`) outside `[-len, len)`. -/
def pyGet {α : Type} (l : List α) (i : Int) : Option α :=
  if 0 ≤ i then l.get? i.toNat
  else if 0 ≤ i + l.length then l.get? (i + l.length).toNat
  else none

/-- `StreamReader.total_size`: the sum of the segment sizes. -/
def totalSize (segs : List SegmentInfo) : Nat := (segs.map (·.dataSize)).sum

/-- `StreamReader` mutable state: `self.position` and `self.offset`. -/
structure SRState where
  position : Int
  offset : Int
  deriving DecidableEq, Repr

/-- The state `__init__` leaves: `position = 0`, `offset = 0`. -/
def initSRState : SRState := ⟨0, 0⟩

/-- `StreamReader._current_virtual_pos` (also `tell()`): the last segment's
end when `position ≥ len(segment_info)`, else
`segment_info[position].virtual_start + offset`. -/
def srTell (segs : List SegmentInfo) (st : SRState) : Option Int :=
  if (segs.length : Int) ≤ st.position then
    match segs.getLast? with
    | some sg => some ((sg.virtualStart : Int) + sg.dataSize)
    | none => none
  else
    match pyGet segs st.position with
    | some sg => some ((sg.virtualStart : Int) + st.offset)
    | none => none

/-- The `while` loop of `StreamReader.read`, fueled (`none` doubles for both
an exception and the loop failing to terminate, which the Python code does
when a segment is not backed by enough underlying data).  Each iteration
seeks the segment's handle to `real_address + offset`, reads
`min(left, data_left)` bytes (a negative count reads to the end, as in
Python), advances, and moves to the next segment when the current one is
exhausted. -/
def srReadLoop (segs : List SegmentInfo) :
    Nat → SRState → Int → List Nat → Option (List Nat × SRState)
  | 0, _, _, _ => none
  | fuel + 1, st, left, acc =>
    if 0 < left ∧ st.position < (segs.length : Int) then
      match pyGet segs st.position with
      | none => none
      | some sg =>
        let chunkLeft : Int := (sg.dataSize : Int) - st.offset
        let toRead : Int := min left chunkLeft
        let fpos : Int := (sg.realAddress : Int) + st.offset
        if fpos < 0 then none
        else
          let dataRead : List Nat :=
            if toRead < 0 then sg.fhData.drop fpos.toNat
            else (sg.fhData.drop fpos.toNat).take toRead.toNat
          let off2 : Int := st.offset + dataRead.length
          let st2 : SRState :=
            if (sg.dataSize : Int) ≤ off2 then ⟨st.position + 1, 0⟩ else ⟨st.position, off2⟩
          srReadLoop segs fuel st2 (left - dataRead.length) (acc ++ dataRead)
    else some (acc, st)

/-- `StreamReader.read(size)`: a negative size means "to the end"; the loop
gets enough fuel for every terminating execution. -/
def srRead (segs : List SegmentInfo) (st : SRState) (size : Int) :
    Option (List Nat × SRState) :=
  match (if size < 0 then (srTell segs st).map (fun t => (totalSize segs : Int) - t)
         else some size) with
  | none => none
  | some sz => srReadLoop segs (sz.toNat + segs.length + 1) st sz []

/-- The three `whence` values accepted by `StreamReader.seek` (any other int
raises `ValueError`). -/
inductive SRWhence where
  | set
  | cur
  | fromEnd
  deriving DecidableEq, Repr

/-- `StreamReader._find_seek_position`:
`bisect.bisect(segment_info, offset, key=virtual_start)` counts, on a list
sorted by `virtual_start` (every list the reader is built from), the segments
with `virtual_start ≤ offset`; the code then subtracts 1. -/
def bisectVS (segs : List SegmentInfo) (x : Int) : Nat :=
  (segs.filter (fun sg => (sg.virtualStart : Int) ≤ x)).length

/-- The shared tail of `StreamReader.seek`: locate the target segment and set
`position`/`offset`, returning the clamped offset. -/
def srLocate (segs : List SegmentInfo) (o : Int) : Option (Int × SRState) :=
  let p : Int := (bisectVS segs o : Int) - 1
  match pyGet segs p with
  | none => none
  | some sg => some (o, ⟨p, o - (sg.virtualStart : Int)⟩)

/-- `StreamReader.seek(offset, whence)`: clamp per origin
(`min(max(0, offset), total_size)` for `SEEK_SET`,
`min(offset + current_virtual_pos, total_size)` for `SEEK_CUR`,
`max(0, total_size + min(offset, 0))` for `SEEK_END`), then locate. -/
def srSeek (segs : List SegmentInfo) (st : SRState) (offset : Int) (whence : SRWhence) :
    Option (Int × SRState) :=
  match (match whence with
         | .set => some (min (max 0 offset) (totalSize segs : Int))
         | .cur => (srTell segs st).map (fun t => min (offset + t) (totalSize segs : Int))
         | .fromEnd => some (max 0 ((totalSize segs : Int) + min offset 0))) with
  | none => none
  | some o => srLocate segs o

/-- `seek(a, Start)` from the initial state followed by `read(n)`, returning
the bytes. -/
def srSeekRead (segs : List SegmentInfo) (a n : Int) : Option (List Nat) :=
  match srSeek segs initSRState a .set with
  | none => none
  | some (_, st1) =>
    match srRead segs st1 n with
    | none => none
    | some (out, _) => some out

/-- The virtual ranges are contiguous starting at `v`:
`segments[i].virtual_start + segments[i].data_size ==
segments[i+1].virtual_start`, with the first `virtual_start` equal to `v`
(the data-model invariant of the spec, with `v = 0`). -/
def contiguousFromB : List SegmentInfo → Nat → Bool
  | [], _ => true
  | sg :: rest, v => sg.virtualStart = v && contiguousFromB rest (v + sg.dataSize)

/-- Every segment's physical range lies inside its handle's data. -/
def segsBacked (segs : List SegmentInfo) : Prop :=
  ∀ sg ∈ segs, sg.realAddress + sg.dataSize ≤ sg.fhData.length

instance : DecidablePred segsBacked := fun segs =>
  inferInstanceAs (Decidable (∀ sg ∈ segs, sg.realAddress + sg.dataSize ≤ sg.fhData.length))

/-- The bytes a segment contributes to the virtual stream. -/
def vContent (sg : SegmentInfo) : List Nat := (sg.fhData.drop sg.realAddress).take sg.dataSize

/-- The whole virtual byte stream: the segments' contributions in order. -/
def virtualBytes (segs : List SegmentInfo) : List Nat := (segs.map vContent).flatten

/-- The reader state `st` denotes virtual position `p`: either inside (or at
the inclusive right edge of) segment `i`, or one past the last segment at
virtual position `total_size`. -/
def GoodAt (segs : List SegmentInfo) (st : SRState) (p : Nat) : Prop :=
  (∃ (i : Nat) (hi : i < segs.length), st.position = (i : Int) ∧
    ∃ off : Nat, st.offset = (off : Int) ∧
      off ≤ (segs.get ⟨i, hi⟩).dataSize ∧
      p = (segs.get ⟨i, hi⟩).virtualStart + off) ∨
  (st.position = (segs.length : Int) ∧ st.offset = 0 ∧ p = totalSize segs)

theorem length_vContent (sg : SegmentInfo) (h : sg.realAddress + sg.dataSize ≤ sg.fhData.length) :
    (vContent sg).length = sg.dataSize := by
  simp [vContent, List.length_take, List.length_drop]
  omega

theorem length_virtualBytes (segs : List SegmentInfo) (h : segsBacked segs) :
    (virtualBytes segs).length = totalSize segs := by
  induction segs with
  | nil => simp [virtualBytes, totalSize]
  | cons sg rest ih =>
    have h1 : sg.realAddress + sg.dataSize ≤ sg.fhData.length := h sg (by simp)
    have h2 : segsBacked rest := fun x hx => h x (by simp [hx])
    simp [virtualBytes, totalSize, length_vContent sg h1] at ih ⊢
    simp [ih h2, totalSize]

theorem vstart_ge (segs : List SegmentInfo) (v : Nat) (h : contiguousFromB segs v = true) :
    ∀ sg ∈ segs, v ≤ sg.virtualStart := by
  induction segs generalizing v with
  | nil => simp
  | cons sg rest ih =>
    simp only [contiguousFromB, Bool.and_eq_true, decide_eq_true_eq] at h
    intro x hx
    rcases List.mem_cons.mp hx with rfl | hx2
    · omega
    · have := ih (v + sg.dataSize) h.2 x hx2
      omega

theorem bisect_cons (sg : SegmentInfo) (rest : List SegmentInfo) (o : Int) :
    bisectVS (sg :: rest) o =
      (if (sg.virtualStart : Int) ≤ o then 1 else 0) + bisectVS rest o := by
  by_cases h : (sg.virtualStart : Int) ≤ o <;> simp [bisectVS, List.filter, h, Nat.add_comm]

theorem bisect_zero (segs : List SegmentInfo) (o : Int)
    (h : ∀ sg ∈ segs, o < (sg.virtualStart : Int)) : bisectVS segs o = 0 := by
  induction segs with
  | nil => rfl
  | cons sg rest ih =>
    rw [bisect_cons]
    have h1 := h sg (by simp)
    rw [if_neg (by omega), ih (fun x hx => h x (by simp [hx]))]

theorem bisect_spec (segs : List SegmentInfo) (v : Nat)
    (hcont : contiguousFromB segs v = true) (hne : segs ≠ []) (o : Int)
    (hlo : (v : Int) ≤ o) (hhi : o ≤ (v : Int) + totalSize segs) :
    ∃ (k : Nat) (hk : k < segs.length), bisectVS segs o = k + 1 ∧
      ((segs.get ⟨k, hk⟩).virtualStart : Int) ≤ o ∧
      o ≤ ((segs.get ⟨k, hk⟩).virtualStart : Int) + (segs.get ⟨k, hk⟩).dataSize := by
  induction segs generalizing v with
  | nil => exact absurd rfl hne
  | cons sg rest ih =>
    simp only [contiguousFromB, Bool.and_eq_true, decide_eq_true_eq] at hcont
    obtain ⟨hv, hrest⟩ := hcont
    rcases List.eq_nil_or_concat rest with rfl | _
    case inl =>
      refine ⟨0, by simp, ?_, ?_, ?_⟩
      · rw [bisect_cons, if_pos (by omega), bisect_zero]
        simp
      · simp; omega
      · simp [totalSize] at hhi ⊢; omega
    case inr =>
      by_cases hcase : o < (v : Int) + sg.dataSize
      · refine ⟨0, by simp, ?_, ?_, ?_⟩
        · rw [bisect_cons, if_pos (by omega), bisect_zero]
          intro x hx
          have := vstart_ge rest (v + sg.dataSize) hrest x hx
          omega
        · simp; omega
        · simp; omega
      · by_cases hrne : rest = []
        · subst hrne
          simp [totalSize] at hhi
          refine ⟨0, by simp, ?_, by simp; omega, by simp; omega⟩
          rw [bisect_cons, if_pos (by omega), bisect_zero]
          simp
        · obtain ⟨k, hk, hbs, hb1, hb2⟩ :=
            ih (v + sg.dataSize) hrest hrne (by omega)
              (by simp [totalSize] at hhi ⊢; omega)
          refine ⟨k + 1, by simp; omega, ?_, ?_, ?_⟩
          · rw [bisect_cons, if_pos (by omega), hbs]; omega
          · simpa using hb1
          · simpa using hb2

theorem last_end (segs : List SegmentInfo) (v : Nat)
    (hcont : contiguousFromB segs v = true) (hne : segs ≠ []) :
    ∃ sg, segs.getLast? = some sg ∧ sg.virtualStart + sg.dataSize = v + totalSize segs := by
  induction segs generalizing v with
  | nil => exact absurd rfl hne
  | cons sg rest ih =>
    simp only [contiguousFromB, Bool.and_eq_true, decide_eq_true_eq] at hcont
    obtain ⟨hv, hrest⟩ := hcont
    by_cases hrne : rest = []
    · subst hrne
      exact ⟨sg, rfl, by simp [totalSize]; omega⟩
    · obtain ⟨x, hx1, hx2⟩ := ih (v + sg.dataSize) hrest hrne
      refine ⟨x, ?_, ?_⟩
      · rw [List.getLast?_cons]
        simp [hx1]
      · simp [totalSize] at hx2 ⊢
        omega

theorem pyGet_nonneg (segs : List SegmentInfo) (i : Nat) (hi : i < segs.length) :
    pyGet segs (i : Int) = some (segs.get ⟨i, hi⟩) := by
  simp [pyGet, List.get?_eq_get hi]

theorem pyGet_neg_one (segs : List SegmentInfo) (hne : segs ≠ []) :
    pyGet segs (-1) = segs.getLast? := by
  have hlen : 1 ≤ segs.length := List.length_pos.mpr hne
  simp only [pyGet]
  rw [if_neg (by omega), if_pos (by omega)]
  have hidx : ((-1 : Int) + segs.length).toNat = segs.length - 1 := by omega
  rw [List.getLast?_eq_getElem? segs]
  simp [List.get?_eq_getElem?, hidx]

theorem tell_of_goodAt (segs : List SegmentInfo) (hcont : contiguousFromB segs 0 = true)
    (hne : segs ≠ []) (st : SRState) (p : Nat) (h : GoodAt segs st p) :
    srTell segs st = some ((p : Nat) : Int) := by
  rcases h with ⟨i, hi, hpos, off, hoff, hole, hp⟩ | ⟨hpos, hoff, hp⟩
  · rw [srTell, if_neg (by omega), hpos, pyGet_nonneg segs i hi]
    rw [hoff] at *
    simp [hp]
  · obtain ⟨sg, hlast, hend⟩ := last_end segs 0 hcont hne
    rw [srTell, if_pos (by omega), hlast]
    simp [hp]
    omega

theorem goodAt_init (segs : List SegmentInfo) (hcont : contiguousFromB segs 0 = true)
    (hne : segs ≠ []) : GoodAt segs initSRState 0 := by
  have hlen : 0 < segs.length := List.length_pos.mpr hne
  left
  refine ⟨0, hlen, rfl, 0, rfl, by omega, ?_⟩
  cases segs with
  | nil => exact absurd rfl hne
  | cons sg rest =>
    simp only [contiguousFromB, Bool.and_eq_true, decide_eq_true_eq] at hcont
    simp [hcont.1]

theorem goodAt_le_total (segs : List SegmentInfo) (v : Nat)
    (hcont : contiguousFromB segs v = true) :
    ∀ (i : Nat) (hi : i < segs.length),
      (segs.get ⟨i, hi⟩).virtualStart + (segs.get ⟨i, hi⟩).dataSize ≤ v + totalSize segs := by
  induction segs generalizing v with
  | nil => intro i hi; simp at hi
  | cons sg rest ih =>
    simp only [contiguousFromB, Bool.and_eq_true, decide_eq_true_eq] at hcont
    obtain ⟨hv, hrest⟩ := hcont
    intro i hi
    cases i with
    | zero => simp [totalSize]; omega
    | succ j =>
      have := ih (v + sg.dataSize) hrest j (by simpa using hi)
      simp [totalSize] at this ⊢
      omega

theorem locate_good (segs : List SegmentInfo) (hcont : contiguousFromB segs 0 = true)
    (hne : segs ≠ []) (o : Int) (h0 : 0 ≤ o) (hT : o ≤ (totalSize segs : Int)) :
    ∃ st, srLocate segs o = some (o, st) ∧ GoodAt segs st o.toNat := by
  obtain ⟨k, hk, hbs, hb1, hb2⟩ := bisect_spec segs 0 hcont hne o (by omega) (by omega)
  refine ⟨⟨k, o - ((segs.get ⟨k, hk⟩).virtualStart : Int)⟩, ?_, ?_⟩
  · rw [srLocate, hbs]
    have hc : (((k + 1 : Nat) : Int) - 1) = (k : Int) := by push_cast; omega
    rw [hc, pyGet_nonneg segs k hk]
  · left
    refine ⟨k, hk, rfl, (o - ((segs.get ⟨k, hk⟩).virtualStart : Int)).toNat,
      by dsimp only; omega, by omega, by omega⟩

theorem locate_any (segs : List SegmentInfo) (hcont : contiguousFromB segs 0 = true)
    (hne : segs ≠ []) (o : Int) (hT : o ≤ (totalSize segs : Int)) :
    ∃ st, srLocate segs o = some (o, st) ∧ srTell segs st = some o := by
  by_cases h0 : 0 ≤ o
  · obtain ⟨st, hl, hg⟩ := locate_good segs hcont hne o h0 hT
    refine ⟨st, hl, ?_⟩
    have ht := tell_of_goodAt segs hcont hne st o.toNat hg
    rw [ht]
    simp only [Option.some.injEq]
    omega
  · obtain ⟨sg, hlast⟩ := List.getLast?_isSome.mpr hne |> Option.isSome_iff_exists.mp
    have hbs : bisectVS segs o = 0 := bisect_zero segs o (fun x _ => by omega)
    have hlen : 1 ≤ segs.length := List.length_pos.mpr hne
    refine ⟨⟨-1, o - (sg.virtualStart : Int)⟩, ?_, ?_⟩
    · rw [srLocate, hbs]
      simp only [Nat.cast_zero, zero_sub]
      rw [pyGet_neg_one segs hne, hlast]
    · rw [srTell, if_neg (by simp; omega)]
      simp only
      rw [pyGet_neg_one segs hne, hlast]
      simp only [Option.some.injEq]
      omega

theorem virtualBytes_drop (segs : List SegmentInfo) (v : Nat)
    (hcont : contiguousFromB segs v = true) (hback : segsBacked segs) :
    ∀ (i : Nat) (hi : i < segs.length) (off : Nat),
      off ≤ (segs.get ⟨i, hi⟩).dataSize →
      (virtualBytes segs).drop ((segs.get ⟨i, hi⟩).virtualStart + off - v) =
        (vContent (segs.get ⟨i, hi⟩)).drop off ++
          ((segs.drop (i + 1)).map vContent).flatten := by
  induction segs generalizing v with
  | nil => intro i hi; simp at hi
  | cons sg rest ih =>
    simp only [contiguousFromB, Bool.and_eq_true, decide_eq_true_eq] at hcont
    obtain ⟨hv, hrest⟩ := hcont
    have hb1 : sg.realAddress + sg.dataSize ≤ sg.fhData.length := hback sg (by simp)
    have hb2 : segsBacked rest := fun x hx => hback x (by simp [hx])
    intro i hi off hoff
    cases i with
    | zero =>
      simp only [List.get] at hoff ⊢
      rw [hv]
      have hidx : v + off - v = off := by omega
      rw [hidx]
      rw [virtualBytes, List.map_cons, List.flatten_cons]
      rw [List.drop_append_of_le_length (by rw [length_vContent sg hb1]; exact hoff)]
      simp [virtualBytes]
    | succ j =>
      have hj : j < rest.length := by simpa using hi
      simp only [List.get] at hoff ⊢
      have hge : v + sg.dataSize ≤ (rest.get ⟨j, hj⟩).virtualStart :=
        vstart_ge rest (v + sg.dataSize) hrest _ (List.get_mem rest j hj)
      rw [virtualBytes, List.map_cons, List.flatten_cons]
      have hidx : (rest.get ⟨j, hj⟩).virtualStart + off - v =
          (vContent sg).length + ((rest.get ⟨j, hj⟩).virtualStart + off - (v + sg.dataSize)) := by
        rw [length_vContent sg hb1]
        omega
      rw [hidx, List.drop_append]
      have := ih (v + sg.dataSize) hrest hb2 j hj off hoff
      rw [virtualBytes] at this
      exact this

theorem contiguous_succ (segs : List SegmentInfo) (v : Nat)
    (hcont : contiguousFromB segs v = true) :
    ∀ (i : Nat) (hi1 : i + 1 < segs.length) (hi0 : i < segs.length),
      (segs.get ⟨i + 1, hi1⟩).virtualStart =
        (segs.get ⟨i, hi0⟩).virtualStart + (segs.get ⟨i, hi0⟩).dataSize := by
  induction segs generalizing v with
  | nil => intro i hi1; simp at hi1
  | cons sg rest ih =>
    simp only [contiguousFromB, Bool.and_eq_true, decide_eq_true_eq] at hcont
    obtain ⟨hv, hrest⟩ := hcont
    intro i hi1 hi0
    cases i with
    | zero =>
      cases rest with
      | nil => simp at hi1
      | cons sg2 rest2 =>
        simp only [contiguousFromB, Bool.and_eq_true, decide_eq_true_eq] at hrest
        simp [List.get, hrest.1, hv]
    | succ j =>
      have hj : j + 1 < rest.length := by simpa using hi1
      simpa using ih (v + sg.dataSize) hrest j hj (by omega)

theorem contiguous_end_at_last (segs : List SegmentInfo)
    (hcont : contiguousFromB segs 0 = true) (i : Nat) (hi : i < segs.length)
    (hlast : i + 1 = segs.length) :
    (segs.get ⟨i, hi⟩).virtualStart + (segs.get ⟨i, hi⟩).dataSize = totalSize segs := by
  obtain ⟨sg, hsg, hend⟩ := last_end segs 0 hcont (by intro h; subst h; simp at hi)
  rw [List.getLast?_eq_getElem? segs] at hsg
  have hkey : segs[segs.length - 1]? = some (segs.get ⟨i, hi⟩) := by
    have h1 : segs.length - 1 = i := by omega
    rw [h1]
    simp [List.getElem?_eq_getElem, hi]
  rw [hkey] at hsg
  cases hsg
  simpa using hend

theorem srReadLoop_spec (segs : List SegmentInfo) (hcont : contiguousFromB segs 0 = true)
    (hback : segsBacked segs) :
    ∀ (fuel n : Nat) (st : SRState) (p : Nat) (acc : List Nat),
      GoodAt segs st p →
      n + (segs.length - st.position.toNat) + 1 ≤ fuel →
      ∃ st2, srReadLoop segs fuel st (n : Int) acc =
          some (acc ++ ((virtualBytes segs).drop p).take n, st2) ∧
        GoodAt segs st2 (min (p + n) (totalSize segs)) := by
  intro fuel
  induction fuel with
  | zero => intro n st p acc _ hf; omega
  | succ fuel ih =>
    intro n st p acc hgood hf
    rcases hgood with ⟨i, hi, hpos, off, hoff, hole, hp⟩ | ⟨hpos, hoff, hp⟩
    · by_cases hn : n = 0
      · subst hn
        refine ⟨st, ?_, ?_⟩
        · simp only [srReadLoop]
          rw [if_neg (by simp)]
          simp
        · have hpT : p ≤ totalSize segs := by
            have := goodAt_le_total segs 0 hcont i hi
            omega
          rw [Nat.add_zero, min_eq_left hpT]
          exact Or.inl ⟨i, hi, hpos, off, hoff, hole, hp⟩
      · set sg := segs.get ⟨i, hi⟩ with hsg
        have hmem : sg ∈ segs := List.get_mem segs i hi
        have hbk : sg.realAddress + sg.dataSize ≤ sg.fhData.length := hback sg hmem
        set tR : Nat := min n (sg.dataSize - off) with htR
        -- the bytes this iteration transfers
        have hXlen : ((vContent sg).drop off).length = sg.dataSize - off := by
          rw [List.length_drop, length_vContent sg hbk]
        have hdr : (sg.fhData.drop (sg.realAddress + off)).take tR =
            ((vContent sg).drop off).take tR := by
          rw [vContent, List.drop_take, List.drop_drop, List.take_take]
          rw [min_eq_left (by omega)]
        have hdrlen : ((sg.fhData.drop (sg.realAddress + off)).take tR).length = tR := by
          rw [List.length_take, List.length_drop]
          omega
        have hdropP : (virtualBytes segs).drop p =
            (vContent sg).drop off ++ ((segs.drop (i + 1)).map vContent).flatten := by
          have := virtualBytes_drop segs 0 hcont hback i hi off hole
          rw [← hsg] at this
          rw [hp]
          simpa using this
        -- reduce one iteration of the loop
        simp only [srReadLoop]
        rw [if_pos (by constructor <;> omega)]
        rw [hpos, pyGet_nonneg segs i hi, ← hsg]
        simp only [hoff]
        have htr2 : min ((n : Nat) : Int) ((sg.dataSize : Int) - ((off : Nat) : Int)) =
            ((tR : Nat) : Int) := by
          omega
        rw [htr2]
        rw [if_neg (show ¬ ((sg.realAddress : Int) + ((off : Nat) : Int) < 0) by omega)]
        rw [if_neg (show ¬ (((tR : Nat) : Int) < 0) by omega)]
        have hfp : (((sg.realAddress : Int) + ((off : Nat) : Int)).toNat) =
            sg.realAddress + off := by omega
        have htn : (((tR : Nat) : Int)).toNat = tR := by omega
        rw [hfp, htn]
        rw [hdrlen]
        by_cases hcase : sg.dataSize - off ≤ n
        · -- the segment is exhausted: advance to the next one
          have htReq : tR = sg.dataSize - off := by omega
          have hcond2 : (sg.dataSize : Int) ≤ ((off : Nat) : Int) + ((tR : Nat) : Int) := by
            omega
          rw [if_pos hcond2]
          have hgood2 : GoodAt segs ⟨(i : Int) + 1, 0⟩ (p + tR) := by
            by_cases hlast : i + 1 = segs.length
            · right
              refine ⟨?_, rfl, ?_⟩
              · dsimp only
                omega
              · have hend := contiguous_end_at_last segs hcont i hi hlast
                rw [← hsg] at hend
                omega
            · left
              have hi2 : i + 1 < segs.length := by omega
              refine ⟨i + 1, hi2, ?_, 0, rfl, by omega, ?_⟩
              · dsimp only
                omega
              · have hsucc := contiguous_succ segs 0 hcont i hi2 hi
                rw [← hsg] at hsucc
                omega
          have hfuel2 : (n - tR) + (segs.length - (SRState.mk ((i : Int) + 1) 0).position.toNat) + 1 ≤ fuel := by
            dsimp only
            omega
          obtain ⟨st3, heq3, hgood3⟩ := ih (n - tR) ⟨(i : Int) + 1, 0⟩ (p + tR)
            (acc ++ (sg.fhData.drop (sg.realAddress + off)).take tR) hgood2 hfuel2
          have hleft2 : ((n : Nat) : Int) - ((tR : Nat) : Int) = (((n - tR : Nat)) : Int) := by
            omega
          rw [hleft2]
          have hdrX : (sg.fhData.drop (sg.realAddress + off)).take tR =
              (vContent sg).drop off := by
            rw [hdr]
            conv_lhs => rw [htReq, ← hXlen]
            rw [List.take_length]
          have hdrop2 : (virtualBytes segs).drop (p + tR) =
              ((segs.drop (i + 1)).map vContent).flatten := by
            conv_lhs => rw [← List.drop_drop, hdropP, htReq, ← hXlen]
            rw [List.drop_left]
          have hfinal : (acc ++ (sg.fhData.drop (sg.realAddress + off)).take tR) ++
              ((virtualBytes segs).drop (p + tR)).take (n - tR) =
              acc ++ ((virtualBytes segs).drop p).take n := by
            rw [hdrX, hdrop2, hdropP]
            have hn2 : n = ((vContent sg).drop off).length + (n - tR) := by
              rw [hXlen]; omega
            conv_rhs => rw [hn2]
            rw [List.take_append, List.append_assoc]
          refine ⟨st3, ?_, ?_⟩
          · rw [heq3, hfinal]
          · have hpn : p + tR + (n - tR) = p + n := by omega
            rw [hpn] at hgood3
            exact hgood3
        · -- the read ends inside the current segment
          have htReq : tR = n := by omega
          have hcond2 : ¬ ((sg.dataSize : Int) ≤ ((off : Nat) : Int) + ((tR : Nat) : Int)) := by
            omega
          rw [if_neg hcond2]
          have hgood2 : GoodAt segs ⟨(i : Int), ((off + tR : Nat) : Int)⟩ (p + tR) := by
            left
            refine ⟨i, hi, rfl, off + tR, rfl, ?_, ?_⟩
            · rw [← hsg]
              omega
            · rw [← hsg]
              omega
          have hfuel2 : 0 + (segs.length - (SRState.mk (i : Int) ((off + tR : Nat) : Int)).position.toNat) + 1 ≤ fuel := by
            dsimp only
            omega
          obtain ⟨st3, heq3, hgood3⟩ := ih 0 ⟨(i : Int), ((off + tR : Nat) : Int)⟩ (p + tR)
            (acc ++ (sg.fhData.drop (sg.realAddress + off)).take tR) hgood2 hfuel2
          have hleft2 : ((n : Nat) : Int) - ((tR : Nat) : Int) = ((0 : Nat) : Int) := by
            omega
          have hoffeq : ((off : Nat) : Int) + ((tR : Nat) : Int) = (((off + tR : Nat)) : Int) := by
            omega
          rw [hleft2, hoffeq]
          have hfinalB : (acc ++ (sg.fhData.drop (sg.realAddress + off)).take tR) ++
              ((virtualBytes segs).drop (p + tR)).take 0 =
              acc ++ ((virtualBytes segs).drop p).take n := by
            rw [List.take_zero, List.append_nil, hdr, hdropP,
              List.take_append_of_le_length (by omega), htReq]
          refine ⟨st3, ?_, ?_⟩
          · rw [heq3, hfinalB]
          · have hpn : p + tR + 0 = p + n := by omega
            rw [hpn] at hgood3
            exact hgood3
    · refine ⟨st, ?_, ?_⟩
      · simp only [srReadLoop]
        rw [if_neg (by omega)]
        have hVlen : (virtualBytes segs).length = totalSize segs := length_virtualBytes segs hback
        rw [hp, List.drop_eq_nil_of_le (by omega), List.take_nil, List.append_nil]
      · rw [min_eq_right (by omega)]
        exact Or.inr ⟨hpos, hoff, rfl⟩

theorem srRead_spec (segs : List SegmentInfo) (hcont : contiguousFromB segs 0 = true)
    (hback : segsBacked segs) (st : SRState) (p n : Nat) (hgood : GoodAt segs st p) :
    ∃ st2, srRead segs st (n : Nat) = some (((virtualBytes segs).drop p).take n, st2) ∧
      GoodAt segs st2 (min (p + n) (totalSize segs)) := by
  have hposnn : 0 ≤ st.position := by
    rcases hgood with ⟨i, hi, hpos, _⟩ | ⟨hpos, _⟩ <;> omega
  obtain ⟨st2, heq, hg⟩ :=
    srReadLoop_spec segs hcont hback (n + segs.length + 1) n st p [] hgood (by omega)
  refine ⟨st2, ?_, hg⟩
  rw [srRead, if_neg (show ¬ ((n : Nat) : Int) < 0 by omega)]
  have htn : (((n : Nat) : Int)).toNat = n := by omega
  show srReadLoop segs ((((n : Nat) : Int)).toNat + segs.length + 1) st ((n : Nat) : Int) [] = _
  rw [htn, heq]
  simp

/-- C1: segmented reader correctness.  For a non-empty segment list with
contiguous virtual ranges starting at 0, each segment backed by its handle's
data, and any `0 ≤ a ≤ b ≤ T`, `seek(a, Start); read(b - a)` returns exactly
the slice `[a : b]` of what `seek(0, Start); read(T)` returns. -/
theorem seek_read_slices (segs : List SegmentInfo) (hne : segs ≠ [])
    (hcont : contiguousFromB segs 0 = true) (hback : segsBacked segs)
    (a b : Nat) (hab : a ≤ b) (hbT : b ≤ totalSize segs) :
    srSeekRead segs (a : Nat) ((b - a : Nat) : Int) =
      (srSeekRead segs 0 ((totalSize segs : Nat) : Int)).map
        (fun l => (l.drop a).take (b - a)) := by
  have hseek : ∀ (o : Nat), o ≤ totalSize segs →
      ∃ st, srSeek segs initSRState (o : Nat) .set = some ((o : Int), st) ∧
        GoodAt segs st o := by
    intro o hoT
    obtain ⟨st, hloc, hg⟩ := locate_good segs hcont hne o (by omega) (by omega)
    refine ⟨st, ?_, by simpa using hg⟩
    rw [srSeek]
    have hclamp : min (max 0 ((o : Nat) : Int)) ((totalSize segs : Nat) : Int) = (o : Int) := by
      omega
    rw [hclamp]
    exact hloc
  obtain ⟨st1, hseek1, hg1⟩ := hseek a (by omega)
  obtain ⟨st0, hseek0, hg0⟩ := hseek 0 (by omega)
  obtain ⟨st2, hread1, _⟩ := srRead_spec segs hcont hback st1 a (b - a) hg1
  obtain ⟨st3, hread0, _⟩ := srRead_spec segs hcont hback st0 0 (totalSize segs) hg0
  rw [Nat.cast_zero] at hseek0
  simp only [srSeekRead, hseek1, hread1, hseek0, hread0]
  have hV : (virtualBytes segs).take (totalSize segs) = virtualBytes segs := by
    conv_lhs => rw [← length_virtualBytes segs hback]
    rw [List.take_length]
  simp only [List.drop_zero]
  rw [hV]
  simp


/-- C5 (amended): for a reader over a non-empty contiguous segment list and a
valid state at virtual position `p`, `seek` computes the returned position per
origin as the code does — `Start` clamps the offset into `[0, total_size]`,
`Cur` adds the offset to the current virtual position and clamps only from
above by `total_size` (a negative sum is returned as is), `End` returns
`max(0, total_size + min(offset, 0))` — and `tell()` afterwards equals the
returned position in every case, the negative `Cur` results included. -/
theorem seek_per_origin (segs : List SegmentInfo) (hne : segs ≠ [])
    (hcont : contiguousFromB segs 0 = true) (st : SRState) (p : Nat)
    (hgood : GoodAt segs st p) (off : Int) :
    (∃ st1, srSeek segs st off .set =
        some (min (max 0 off) (totalSize segs : Int), st1) ∧
      srTell segs st1 = some (min (max 0 off) (totalSize segs : Int)) ∧
      0 ≤ min (max 0 off) (totalSize segs : Int) ∧
      min (max 0 off) (totalSize segs : Int) ≤ (totalSize segs : Int)) ∧
    (∃ st2, srSeek segs st off .cur = some (min (off + p) (totalSize segs : Int), st2) ∧
      srTell segs st2 = some (min (off + p) (totalSize segs : Int)) ∧
      min (off + p) (totalSize segs : Int) ≤ (totalSize segs : Int)) ∧
    (∃ st3, srSeek segs st off .fromEnd =
        some (max 0 ((totalSize segs : Int) + min off 0), st3) ∧
      srTell segs st3 = some (max 0 ((totalSize segs : Int) + min off 0)) ∧
      0 ≤ max 0 ((totalSize segs : Int) + min off 0) ∧
      max 0 ((totalSize segs : Int) + min off 0) ≤ (totalSize segs : Int)) := by
  have htell0 : srTell segs st = some ((p : Nat) : Int) :=
    tell_of_goodAt segs hcont hne st p hgood
  refine ⟨?_, ?_, ?_⟩
  · obtain ⟨st1, hloc, htell⟩ :=
      locate_any segs hcont hne (min (max 0 off) (totalSize segs : Int)) (by omega)
    refine ⟨st1, ?_, htell, by omega, by omega⟩
    simp only [srSeek]
    exact hloc
  · obtain ⟨st2, hloc, htell⟩ :=
      locate_any segs hcont hne (min (off + p) (totalSize segs : Int)) (by omega)
    refine ⟨st2, ?_, htell, by omega⟩
    simp only [srSeek, htell0, Option.map_some]
    exact hloc
  · obtain ⟨st3, hloc, htell⟩ :=
      locate_any segs hcont hne (max 0 ((totalSize segs : Int) + min off 0)) (by omega)
    refine ⟨st3, ?_, htell, by omega, by omega⟩
    simp only [srSeek]
    exact hloc

/-- C5 counterexample: the claim "seek returns a position inside
`[0, total_size]`" fails for `SEEK_CUR`.  On a one-segment reader of total
size 4, at virtual position 0, `seek(-3, Cur)` returns `-3`: the code computes
`min(offset + current, total_size)` without the lower clamp, and the state is
left at segment index `-1` with offset `-3`. -/
theorem seek_cur_can_return_negative :
    srSeek [⟨[1, 2, 3, 4], 0, 0, 4⟩] ⟨0, 0⟩ (-3) .cur =
      some (-3, ⟨-1, -3⟩) ∧ (-3 : Int) < 0 := by
  constructor
  · rfl
  · decide

/-- Witness for C5: the per-origin characterization applied to a concrete
one-segment reader at position 0 with `seek(2, Start)`: the returned position
is the clamped offset 2. -/
theorem seek_per_origin_witness :
    (srSeek [⟨[1, 2, 3, 4], 0, 0, 4⟩] ⟨0, 0⟩ 2 .set).map Prod.fst =
      some (min (max 0 2) ((totalSize [⟨[1, 2, 3, 4], 0, 0, 4⟩] : Nat) : Int)) := by
  obtain ⟨st1, heq, _⟩ :=
    (seek_per_origin [⟨[1, 2, 3, 4], 0, 0, 4⟩] (by decide) (by decide) ⟨0, 0⟩ 0
      (goodAt_init [⟨[1, 2, 3, 4], 0, 0, 4⟩] (by decide) (by decide)) 2).1
  rw [heq]
  rfl

/-- Witness for C1: the slicing law applied to a concrete two-segment reader
(virtual bytes `[8, 7, 1, 2, 3]`) with `a = 1`, `b = 4`. -/
theorem seek_read_slices_witness :
    srSeekRead [⟨[9, 8, 7, 6, 5], 1, 0, 2⟩, ⟨[1, 2, 3, 4], 0, 2, 3⟩] (1 : Nat)
        ((4 - 1 : Nat) : Int) =
      (srSeekRead [⟨[9, 8, 7, 6, 5], 1, 0, 2⟩, ⟨[1, 2, 3, 4], 0, 2, 3⟩] 0
          ((totalSize [⟨[9, 8, 7, 6, 5], 1, 0, 2⟩, ⟨[1, 2, 3, 4], 0, 2, 3⟩] : Nat) : Int)).map
        (fun l => (l.drop 1).take (4 - 1)) :=
  seek_read_slices [⟨[9, 8, 7, 6, 5], 1, 0, 2⟩, ⟨[1, 2, 3, 4], 0, 2, 3⟩]
    (by decide) (by decide) (by decide) 1 4 (by decide) (by decide)

/-! ## Bit stream reader (src/psdemuxer/io/bits.py)

`BitStreamReader` pulls `size` bits, MSB-first, from a byte stream, keeping a
bit cursor `_position` and the most recently fetched byte `_current_byte`.
`read` has no validation of `size` whatsoever; its only failure is the
`data[0]` `IndexError` when the cursor is 0 and the stream is exhausted. -/

/-- The reader's state: the underlying handle (bytes plus cursor),
`_position`, `_current_byte`, `_keep_data` and the side buffer `_data`. -/
structure BitState where
  fileData : List Nat
  filePos : Nat
  position : Nat
  currentByte : Nat
  keepData : Bool
  dataAcc : List Nat
  deriving DecidableEq, Repr

/-- `BitStreamReader.__init__` (`_position = 0`, `_current_byte = 0`). -/
def initBitState (data : List Nat) (keep : Bool) : BitState :=
  ⟨data, 0, 0, 0, keep, []⟩

/-- `self._fh.read(n)`. -/
def bsFhRead (st : BitState) (n : Nat) : List Nat × BitState :=
  let got := (st.fileData.drop st.filePos).take n
  (got, { st with filePos := st.filePos + got.length })

/-- `_make_mask(num, pos)`: the mask selecting `num` bits starting at bit
position `pos` (MSB=0) of a byte, and the matching right shift; `ValueError`
when `num + pos > 8`. -/
def makeMask (num pos : Nat) : Option (Nat × Nat) :=
  if num + pos > 8 then none
  else some ((2 ^ num - 1) <<< (8 - num - pos), 8 - num - pos)

/-- The `for extra_byte in extra_bytes` loop of `read`, carrying
`(value, bits_left_to_shift, extra_bits_to_read, new_pos, current_byte)`. -/
def bitsReadLoop : List Nat → Nat → Nat → Nat → Nat → Nat → Option (Nat × Nat × Nat)
  | [], value, _, _, newPos, cur => some (value, newPos, cur)
  | b :: rest, value, bitsLeft, extraBits, _, _ =>
    let num := min 8 extraBits
    match makeMask num 0 with
    | none => none
    | some (mask, rshift) =>
      let lshift := bitsLeft - num
      let value2 := value ||| (((b &&& mask) >>> rshift) <<< lshift)
      bitsReadLoop rest value2 (bitsLeft - num) (extraBits - num) (num % 8) b

/-- `BitStreamReader.read(size)`: fetch a byte if the bit cursor is 0
(`IndexError` when the stream is exhausted — the only failure), take
`min(size, 8 - position)` bits from the current byte, then
`ceil(extra_bits / 8)` further bytes via the loop.  Subtractions are on `Nat`,
matching the `max(0, ...)` and the loop invariants of the Python code. -/
def bitsRead (st : BitState) (size : Nat) : Option (Nat × BitState) :=
  match (if st.position = 0 then
           (match bsFhRead st 1 with
            | ([], _) => none
            | (b :: bs, st1) => some { st1 with
                currentByte := b
                dataAcc := if st1.keepData then st1.dataAcc ++ (b :: bs) else st1.dataAcc })
         else some st) with
  | none => none
  | some st1 =>
    let bitsInCurrentPos := 8 - st1.position
    let extraBitsToRead := size - bitsInCurrentPos
    let extraByteNum := (extraBitsToRead + 7) / 8
    match bsFhRead st1 extraByteNum with
    | (extraBytes, st2) =>
      let value : Nat := 0
      let num := min size bitsInCurrentPos
      match makeMask num st1.position with
      | none => none
      | some (mask, rightShift) =>
        let leftShift := size - num
        let value1 := value ||| (((st1.currentByte &&& mask) >>> rightShift) <<< leftShift)
        let newPos := (st1.position + num) % 8
        match bitsReadLoop extraBytes value1 (size - num) extraBitsToRead newPos
            st1.currentByte with
        | none => none
        | some (value2, newPos2, cur2) =>
          some (value2, { st2 with
            position := newPos2
            currentByte := cur2
            dataAcc := if st2.keepData then st2.dataAcc ++ extraBytes else st2.dataAcc })

/-- Run `read(k)` for each `k` in `sizes`, collecting the returned integers. -/
def bitsReadSeq (st : BitState) : List Nat → Option (List Nat × BitState)
  | [] => some ([], st)
  | k :: ks =>
    match bitsRead st k with
    | none => none
    | some (v, st2) =>
      match bitsReadSeq st2 ks with
      | none => none
      | some (vs, st3) => some (v :: vs, st3)

/-- The 8 bits of a byte, MSB first. -/
def byteBits (b : Nat) : List Bool := (List.range 8).map (fun k => b.testBit (7 - k))

/-- The whole stream as one MSB-first bit string. -/
def streamBits (data : List Nat) : List Bool := (data.map byteBits).flatten

/-- The value of an MSB-first bit string. -/
def bitsValue (l : List Bool) : Nat := l.foldl (fun a bit => 2 * a + (if bit then 1 else 0)) 0

/-- Split a bit string into chunks of the given widths and value each one
(the claim's reference semantics). -/
def chunkValues (bits : List Bool) : List Nat → List Nat
  | [] => []
  | k :: ks => bitsValue (bits.take k) :: chunkValues (bits.drop k) ks

/-- The `w` bits of `m` below bit `w`, MSB first. -/
def bitsOfLen (w m : Nat) : List Bool := (List.range w).map (fun k => m.testBit (w - 1 - k))

theorem bitsValue_foldl_acc (l : List Bool) (a : Nat) :
    l.foldl (fun x bit => 2 * x + (if bit then 1 else 0)) a =
      a * 2 ^ l.length + bitsValue l := by
  induction l generalizing a with
  | nil => simp [bitsValue]
  | cons b rest ih =>
    simp only [List.foldl_cons, List.length_cons]
    rw [ih]
    have h2 : bitsValue (b :: rest) =
        (2 * 0 + (if b = true then 1 else 0)) * 2 ^ rest.length + bitsValue rest := by
      rw [bitsValue, List.foldl_cons, ih]
    rw [h2]
    ring

theorem bitsValue_append (l1 l2 : List Bool) :
    bitsValue (l1 ++ l2) = bitsValue l1 * 2 ^ l2.length + bitsValue l2 := by
  rw [bitsValue, List.foldl_append, bitsValue_foldl_acc]
  rfl

theorem bitsValue_cons (b : Bool) (rest : List Bool) :
    bitsValue (b :: rest) = (if b then 1 else 0) * 2 ^ rest.length + bitsValue rest := by
  rw [bitsValue, List.foldl_cons, bitsValue_foldl_acc]
  ring_nf

theorem bitsValue_lt (l : List Bool) : bitsValue l < 2 ^ l.length := by
  induction l with
  | nil => simp [bitsValue]
  | cons b rest ih =>
    rw [bitsValue_cons, List.length_cons, pow_succ]
    have hb : (if b then 1 else 0) ≤ 1 := by split <;> omega
    nlinarith

theorem extractBits (b num s : Nat) :
    (b &&& ((2 ^ num - 1) <<< s)) >>> s = (b >>> s) % 2 ^ num := by
  apply Nat.eq_of_testBit_eq
  intro i
  rw [Nat.testBit_shiftRight, Nat.testBit_and, Nat.testBit_shiftLeft,
    Nat.testBit_two_pow_sub_one, Nat.testBit_mod_two_pow, Nat.testBit_shiftRight]
  have h1 : s + i - s = i := by omega
  have h2 : s + i ≥ s := by omega
  rw [h1]
  simp [h2, Bool.and_comm]

theorem length_bitsOfLen (w m : Nat) : (bitsOfLen w m).length = w := by
  simp [bitsOfLen]

theorem bitsOfLen_succ (w m : Nat) :
    bitsOfLen (w + 1) m = m.testBit w :: bitsOfLen w m := by
  apply List.ext_getElem
  · simp [length_bitsOfLen]
  · intro j h1 h2
    cases j with
    | zero => simp [bitsOfLen]
    | succ i =>
      simp only [bitsOfLen, List.getElem_map, List.getElem_range, List.getElem_cons_succ]
      congr 1
      omega

theorem bitsValue_ofLen (w m : Nat) : bitsValue (bitsOfLen w m) = m % 2 ^ w := by
  induction w with
  | zero => simp [bitsOfLen, bitsValue, Nat.mod_one]
  | succ w ih =>
    rw [bitsOfLen_succ, bitsValue_cons, length_bitsOfLen, ih]
    have hsplit : m % 2 ^ (w + 1) = 2 ^ w * ((m / 2 ^ w) % 2) + m % 2 ^ w := by
      conv_lhs => rw [pow_succ, Nat.mod_mul]
      ring
    have htb : (if m.testBit w then 1 else 0) = (m / 2 ^ w) % 2 := by
      rw [Nat.testBit_to_div_mod]
      rcases Nat.mod_two_eq_zero_or_one (m / 2 ^ w) with h | h <;> simp [h]
    rw [htb, hsplit]
    ring

theorem slice_byteBits (b p num : Nat) (h : p + num ≤ 8) :
    ((byteBits b).drop p).take num = bitsOfLen num (b >>> (8 - p - num)) := by
  apply List.ext_getElem
  · simp [byteBits, length_bitsOfLen, List.length_take, List.length_drop]
    omega
  · intro j h1 h2
    simp only [byteBits, bitsOfLen, List.getElem_take, List.getElem_drop,
      List.getElem_map, List.getElem_range]
    rw [Nat.testBit_shiftRight]
    congr 1
    simp [List.length_take, List.length_drop, byteBits] at h1
    rw [length_bitsOfLen] at h2
    omega

theorem orMulPow (w e n x : Nat) (hn : n ≤ e) (hx : x < 2 ^ n) :
    (w * 2 ^ e) ||| (x <<< (e - n)) = w * 2 ^ e + x * 2 ^ (e - n) := by
  rw [Nat.shiftLeft_eq]
  apply Nat.eq_of_testBit_eq
  intro i
  rw [Nat.testBit_or]
  have hpe : (0 : Nat) < 2 ^ e := Nat.pos_pow_of_pos e (by omega)
  have hpen : (0 : Nat) < 2 ^ (e - n) := Nat.pos_pow_of_pos (e - n) (by omega)
  have e1 : w * 2 ^ e = 2 ^ e * w + 0 := by ring
  have e2 : x * 2 ^ (e - n) = 2 ^ (e - n) * x + 0 := by ring
  have e3 : w * 2 ^ e + x * 2 ^ (e - n) = 2 ^ (e - n) * (2 ^ n * w + x) + 0 := by
    have hpow : 2 ^ (e - n) * 2 ^ n = 2 ^ e := by
      rw [← pow_add]
      congr 1
      omega
    calc w * 2 ^ e + x * 2 ^ (e - n)
        = 2 ^ (e - n) * 2 ^ n * w + 2 ^ (e - n) * x := by rw [hpow]; ring
      _ = 2 ^ (e - n) * (2 ^ n * w + x) + 0 := by ring
  rw [e3, e1, e2,
    Nat.testBit_mul_pow_two_add w hpe i,
    Nat.testBit_mul_pow_two_add x hpen i,
    Nat.testBit_mul_pow_two_add (2 ^ n * w + x) hpen i]
  rw [Nat.testBit_mul_pow_two_add w hx (i - (e - n))]
  by_cases h1 : i < e - n
  · simp [h1, show i < e by omega]
  · by_cases h2 : i < e
    · simp [h1, h2, show i - (e - n) < n by omega]
    · have hxf : x.testBit (i - (e - n)) = false :=
        Nat.testBit_lt_two_pow (lt_of_lt_of_le hx (Nat.pow_le_pow_right (by omega) (by omega)))
      simp [h1, h2, show ¬ (i - (e - n) < n) by omega, hxf]
      congr 1
      omega

theorem length_byteBits (b : Nat) : (byteBits b).length = 8 := by
  simp [byteBits]

theorem length_streamBits (data : List Nat) : (streamBits data).length = 8 * data.length := by
  induction data with
  | nil => simp [streamBits]
  | cons b rest ih =>
    simp only [streamBits, List.map_cons, List.flatten_cons, List.length_append,
      length_byteBits, List.length_cons] at ih ⊢
    omega

theorem streamBits_drop (data : List Nat) :
    ∀ (q r : Nat), r < 8 → q < data.length →
      (streamBits data).drop (8 * q + r) =
        ((byteBits (data.getD q 0)).drop r) ++ ((data.drop (q + 1)).map byteBits).flatten := by
  induction data with
  | nil => intro q r _ hq; simp at hq
  | cons b rest ih =>
    intro q r hr hq
    cases q with
    | zero =>
      simp only [streamBits, List.map_cons, List.flatten_cons, Nat.mul_zero, Nat.zero_add]
      rw [List.drop_append_of_le_length (by rw [length_byteBits]; omega)]
      simp [List.getD]
    | succ j =>
      have hj : j < rest.length := by simpa using hq
      simp only [streamBits, List.map_cons, List.flatten_cons]
      have hidx : 8 * (j + 1) + r = (byteBits b).length + (8 * j + r) := by
        rw [length_byteBits]; omega
      rw [hidx, List.drop_append]
      have := ih j r hr hj
      rw [streamBits] at this
      simpa using this

theorem flatten_bits_take (l : List Nat) :
    ∀ (m e : Nat), e ≤ 8 * m →
      (((l.take m).map byteBits).flatten).take e = ((l.map byteBits).flatten).take e := by
  induction l with
  | nil => simp
  | cons b rest ih =>
    intro m e he
    cases m with
    | zero =>
      have : e = 0 := by omega
      simp [this]
    | succ j =>
      simp only [List.take_succ_cons, List.map_cons, List.flatten_cons]
      by_cases hcase : e ≤ 8
      · rw [List.take_append_of_le_length (by rw [length_byteBits]; omega),
          List.take_append_of_le_length (by rw [length_byteBits]; omega)]
      · have h1 : e = (byteBits b).length + (e - 8) := by rw [length_byteBits]; omega
        rw [h1, List.take_append, List.take_append, ih j (e - 8) (by omega)]

theorem getLastD_take_drop (l : List Nat) (d a m : Nat) (hm : 1 ≤ m)
    (hlen : a + m ≤ l.length) :
    ((l.drop a).take m).getLastD d = l.getD (a + m - 1) 0 := by
  have hlen2 : ((l.drop a).take m).length = m := by
    rw [List.length_take, List.length_drop]
    omega
  rw [List.getLastD_eq_getLast?, List.getLast?_eq_getElem?, hlen2]
  rw [List.getElem?_take, if_pos (by omega : m - 1 < m), List.getElem?_drop]
  rw [List.getD, show a + (m - 1) = a + m - 1 by omega, List.get?_eq_getElem?]
  rw [List.getElem?_eq_getElem (show a + m - 1 < l.length by omega)]
  rfl

theorem chunk_take_byte (b num : Nat) (hnum : num ≤ 8) :
    (b &&& ((2 ^ num - 1) <<< (8 - num))) >>> (8 - num) =
      bitsValue ((byteBits b).take num) := by
  rw [extractBits, ← bitsValue_ofLen]
  congr 1
  have := slice_byteBits b 0 num (by omega)
  simpa using this.symm

theorem bitsReadLoop_bits :
    ∀ (bs : List Nat) (e w np cur : Nat),
      bs.length = (e + 7) / 8 →
      bitsReadLoop bs (w * 2 ^ e) e e np cur =
        some (w * 2 ^ e + bitsValue (((bs.map byteBits).flatten).take e),
          (if bs.isEmpty then np else e % 8),
          bs.getLastD cur) := by
  intro bs
  induction bs with
  | nil =>
    intro e w np cur hlen
    have he : e = 0 := by simp at hlen; omega
    subst he
    simp [bitsReadLoop, bitsValue]
  | cons b rest ih =>
    intro e w np cur hlen
    simp only [List.length_cons] at hlen
    have he : 1 ≤ e := by omega
    simp only [bitsReadLoop, makeMask, if_neg (show ¬ (min 8 e + 0 > 8) by omega)]
    simp only [Nat.add_zero, Nat.sub_zero]
    have hlb : bitsValue ((byteBits b).take (min 8 e)) < 2 ^ (min 8 e) := by
      have h1 := bitsValue_lt ((byteBits b).take (min 8 e))
      have h2 : ((byteBits b).take (min 8 e)).length = min 8 e := by
        rw [List.length_take, length_byteBits]
        omega
      rw [h2] at h1
      exact h1
    rw [chunk_take_byte b (min 8 e) (by omega),
      orMulPow w e (min 8 e) _ (by omega) hlb]
    have hfact : w * 2 ^ e + bitsValue ((byteBits b).take (min 8 e)) * 2 ^ (e - min 8 e) =
        (w * 2 ^ (min 8 e) + bitsValue ((byteBits b).take (min 8 e))) * 2 ^ (e - min 8 e) := by
      have hpow : 2 ^ (min 8 e) * 2 ^ (e - min 8 e) = 2 ^ e := by
        rw [← pow_add]
        congr 1
        omega
      calc w * 2 ^ e + bitsValue ((byteBits b).take (min 8 e)) * 2 ^ (e - min 8 e)
          = w * (2 ^ (min 8 e) * 2 ^ (e - min 8 e)) +
              bitsValue ((byteBits b).take (min 8 e)) * 2 ^ (e - min 8 e) := by rw [hpow]
        _ = (w * 2 ^ (min 8 e) + bitsValue ((byteBits b).take (min 8 e))) *
              2 ^ (e - min 8 e) := by ring
    rw [hfact]
    have hrest : rest.length = (e - min 8 e + 7) / 8 := by omega
    rw [ih (e - min 8 e) (w * 2 ^ (min 8 e) + bitsValue ((byteBits b).take (min 8 e)))
      ((min 8 e) % 8) b hrest]
    by_cases hre : rest = []
    · subst hre
      simp only [List.length_nil] at hrest
      have hnumeq : min 8 e = e := by omega
      rw [hnumeq]
      simp [bitsValue]
    · have hrne : rest.length ≥ 1 := by
        cases rest with
        | nil => exact absurd rfl hre
        | cons x xs => simp
      have he8 : 8 ≤ e := by omega
      have hmin8 : min 8 e = 8 := by omega
      rw [hmin8]
      simp only [List.isEmpty_cons, if_neg (by simp [hre] : ¬ rest.isEmpty = true)]
      congr 2
      · -- value equality
        have hsplit : (((b :: rest).map byteBits).flatten).take e =
            byteBits b ++ (((rest.map byteBits).flatten).take (e - 8)) := by
          simp only [List.map_cons, List.flatten_cons]
          have h1 : e = (byteBits b).length + (e - 8) := by rw [length_byteBits]; omega
          conv_lhs => rw [h1]
          rw [List.take_append]
        rw [hsplit, bitsValue_append]
        have hlenF : (((rest.map byteBits).flatten).take (e - 8)).length = e - 8 := by
          rw [List.length_take]
          have : ((rest.map byteBits).flatten).length = 8 * rest.length := by
            have := length_streamBits rest
            rw [streamBits] at this
            exact this
          omega
        rw [hlenF]
        have htk : (byteBits b).take 8 = byteBits b := by
          conv_lhs => rw [show (8 : Nat) = (byteBits b).length from (length_byteBits b).symm]
          rw [List.take_length]
        rw [htk]
        have h256 : (2 : Nat) ^ 8 * 2 ^ (e - 8) = 2 ^ e := by
          rw [← pow_add]
          congr 1
          omega
        have hdistrib : (w * 2 ^ 8 + bitsValue (byteBits b)) * 2 ^ (e - 8) =
            w * 2 ^ e + bitsValue (byteBits b) * 2 ^ (e - 8) := by
          rw [← h256]
          ring
        rw [hdistrib]
        ring
      · have hm : (e - 8) % 8 = e % 8 := by omega
        rw [hm, List.getLastD_cons]
        simp

/-- The reader's state after having consumed `c` bits of `data` (with
`keep_data = False`): the handle sits right after the last touched byte, the
bit cursor is `c mod 8`, and the partially consumed byte is loaded. -/
def BitStateAt (data : List Nat) (c : Nat) (st : BitState) : Prop :=
  st.fileData = data ∧ st.filePos = (c + 7) / 8 ∧ st.position = c % 8 ∧
  st.keepData = false ∧ st.dataAcc = [] ∧
  (c % 8 ≠ 0 → st.currentByte = data.getD (c / 8) 0)

theorem drop_take_one (l : List Nat) (a : Nat) (ha : a < l.length) :
    (l.drop a).take 1 = [l.getD a 0] := by
  rw [List.take_one_drop_eq_of_lt_length ha]
  simp [List.getD, List.getElem?_eq_getElem ha]

theorem bitsRead_bits (data : List Nat) (c k : Nat) (st : BitState)
    (hst : BitStateAt data c st) (hk : 1 ≤ k) (hck : c + k ≤ 8 * data.length) :
    ∃ st2, bitsRead st k = some (bitsValue (((streamBits data).drop c).take k), st2) ∧
      BitStateAt data (c + k) st2 := by
  obtain ⟨fd, fp, pos, cb, kd, da⟩ := st
  obtain ⟨hfd, hfp, hpos, hkeep, hacc, hcur⟩ := hst
  dsimp only at hfd hfp hpos hkeep hacc hcur
  subst hfd hkeep hacc
  have hi : c / 8 < fd.length := by omega
  have hp8 : c % 8 < 8 := Nat.mod_lt _ (by omega)
  have hstep : (if (BitState.mk fd fp pos cb false []).position = 0 then
        (match bsFhRead (BitState.mk fd fp pos cb false []) 1 with
         | ([], _) => none
         | (b :: bs, st1) => some { st1 with
             currentByte := b
             dataAcc := if st1.keepData then st1.dataAcc ++ (b :: bs) else st1.dataAcc })
      else some (BitState.mk fd fp pos cb false [])) =
      some ⟨fd, c / 8 + 1, pos, (if c % 8 = 0 then fd.getD (c / 8) 0 else cb), false, []⟩ := by
    by_cases hp0 : c % 8 = 0
    · rw [if_pos (by dsimp only; omega)]
      have hfp0 : fp = c / 8 := by omega
      rw [bsFhRead]
      dsimp only
      rw [hfp0, drop_take_one fd (c / 8) hi]
      simp [hp0]
    · rw [if_neg (by dsimp only; omega)]
      rw [if_neg hp0, hfp, show (c + 7) / 8 = c / 8 + 1 by omega]
  have hcbN : (if c % 8 = 0 then fd.getD (c / 8) 0 else cb) = fd.getD (c / 8) 0 := by
    by_cases hp0 : c % 8 = 0
    · rw [if_pos hp0]
    · rw [if_neg hp0, hcur hp0]
  rw [hcbN] at hstep
  rw [bitsRead, hstep]
  simp only [bsFhRead, hpos]
  rw [makeMask, if_neg (show ¬ (k ⊓ (8 - c % 8) + c % 8 > 8) by omega)]
  simp only [Nat.zero_or]
  have hEBlen : (List.take ((k - (8 - c % 8) + 7) / 8) (List.drop (c / 8 + 1) fd)).length =
      (k - (8 - c % 8) + 7) / 8 := by
    rw [List.length_take, List.length_drop]
    omega
  have hchunk : (fd.getD (c / 8) 0 &&&
        (2 ^ (k ⊓ (8 - c % 8)) - 1) <<< (8 - k ⊓ (8 - c % 8) - c % 8)) >>>
          (8 - k ⊓ (8 - c % 8) - c % 8) =
      bitsValue (((byteBits (fd.getD (c / 8) 0)).drop (c % 8)).take (k ⊓ (8 - c % 8))) := by
    rw [extractBits, ← bitsValue_ofLen]
    congr 1
    rw [slice_byteBits _ (c % 8) (k ⊓ (8 - c % 8)) (by omega)]
    congr 2
    omega
  rw [hchunk, Nat.shiftLeft_eq,
    show k - k ⊓ (8 - c % 8) = k - (8 - c % 8) by omega]
  rw [bitsReadLoop_bits _ (k - (8 - c % 8)) _ _ _ hEBlen]
  rw [flatten_bits_take (fd.drop (c / 8 + 1)) _ (k - (8 - c % 8)) (by omega)]
  have hdropC : List.drop c (streamBits fd) =
      ((byteBits (fd.getD (c / 8) 0)).drop (c % 8)) ++
        ((fd.drop (c / 8 + 1)).map byteBits).flatten := by
    conv_lhs => rw [show c = 8 * (c / 8) + c % 8 by omega]
    exact streamBits_drop fd (c / 8) (c % 8) hp8 hi
  have hXlen : ((byteBits (fd.getD (c / 8) 0)).drop (c % 8)).length = 8 - c % 8 := by
    rw [List.length_drop, length_byteBits]
  have hFlen : (((fd.drop (c / 8 + 1)).map byteBits).flatten).length =
      8 * (fd.length - (c / 8 + 1)) := by
    have := length_streamBits (fd.drop (c / 8 + 1))
    rw [streamBits] at this
    rw [this, List.length_drop]
  rw [hdropC]
  by_cases hcase : k ≤ 8 - c % 8
  · rw [List.take_append_of_le_length (by rw [hXlen]; omega)]
    rw [show k ⊓ (8 - c % 8) = k by omega, show k - (8 - c % 8) = 0 by omega]
    simp only [pow_zero, mul_one, List.take_zero]
    rw [show bitsValue ([] : List Bool) = 0 from rfl, Nat.add_zero]
    refine ⟨_, rfl, ?_⟩
    have hEB0 : (0 + 7) / 8 = 0 := by decide
    refine ⟨rfl, ?_, ?_, rfl, rfl, ?_⟩
    · dsimp only
      rw [hEB0]
      simp only [List.take_zero, List.length_nil]
      omega
    · dsimp only
      rw [hEB0]
      simp only [List.take_zero, List.isEmpty_nil, if_true]
      omega
    · intro hnz
      dsimp only
      rw [hEB0]
      simp only [List.take_zero]
      rw [show (c + k) / 8 = c / 8 by omega]
      rfl
  · have hsplit : List.take k
        (List.drop (c % 8) (byteBits (fd.getD (c / 8) 0)) ++
          ((fd.drop (c / 8 + 1)).map byteBits).flatten) =
        List.drop (c % 8) (byteBits (fd.getD (c / 8) 0)) ++
          List.take (k - (8 - c % 8)) (((fd.drop (c / 8 + 1)).map byteBits).flatten) := by
      conv_lhs => rw [show k = (List.drop (c % 8) (byteBits (fd.getD (c / 8) 0))).length +
        (k - (8 - c % 8)) by rw [hXlen]; omega]
      rw [List.take_append]
    rw [hsplit, bitsValue_append]
    rw [show (List.take (k - (8 - c % 8))
        (((fd.drop (c / 8 + 1)).map byteBits).flatten)).length = k - (8 - c % 8) from by
      rw [List.length_take, hFlen]; omega]
    rw [show k ⊓ (8 - c % 8) = 8 - c % 8 by omega]
    rw [show List.take (8 - c % 8) (List.drop (c % 8) (byteBits (fd.getD (c / 8) 0))) =
        List.drop (c % 8) (byteBits (fd.getD (c / 8) 0)) from by
      conv_lhs => rw [← hXlen]
      exact List.take_length _]
    refine ⟨_, rfl, ?_⟩
    have hne : ¬ ((List.take ((k - (8 - c % 8) + 7) / 8)
        (List.drop (c / 8 + 1) fd)).isEmpty = true) := by
      rw [List.isEmpty_iff]
      intro h
      rw [h] at hEBlen
      simp only [List.length_nil] at hEBlen
      omega
    refine ⟨rfl, ?_, ?_, rfl, rfl, ?_⟩
    · dsimp only
      rw [hEBlen]
      omega
    · dsimp only
      rw [if_neg hne]
      omega
    · intro hnz
      dsimp only
      rw [getLastD_take_drop fd _ (c / 8 + 1) _ (by omega) (by omega)]
      rw [show c / 8 + 1 + (k - (8 - c % 8) + 7) / 8 - 1 = (c + k) / 8 by omega]


theorem bitsReadSeq_bits (data : List Nat) (sizes : List Nat) :
    ∀ (c : Nat) (st : BitState), BitStateAt data c st →
    (∀ k ∈ sizes, 1 ≤ k) → c + sizes.sum ≤ 8 * data.length →
    ∃ st2, bitsReadSeq st sizes =
        some (chunkValues ((streamBits data).drop c) sizes, st2) ∧
      BitStateAt data (c + sizes.sum) st2 := by
  induction sizes with
  | nil =>
    intro c st hst _ _
    exact ⟨st, rfl, by simpa using hst⟩
  | cons k ks ih =>
    intro c st hst hks hsum
    rw [List.sum_cons] at hsum
    obtain ⟨st2, h1, h2⟩ := bitsRead_bits data c k st hst
      (hks k (List.mem_cons_self k ks)) (by omega)
    obtain ⟨st3, h3, h4⟩ := ih (c + k) st2 h2
      (fun x hx => hks x (List.mem_cons_of_mem k hx)) (by omega)
    refine ⟨st3, ?_, ?_⟩
    · simp only [bitsReadSeq, h1, h3, chunkValues]
      rw [show List.drop k (List.drop c (streamBits data)) =
          List.drop (c + k) (streamBits data) from by
        rw [List.drop_drop, Nat.add_comm]]
    · rw [List.sum_cons, ← Nat.add_assoc]
      exact h4

theorem bitsReadLoop_total (bs : List Nat) :
    ∀ v bl eb np cur, ∃ r, bitsReadLoop bs v bl eb np cur = some r := by
  induction bs with
  | nil => intro v bl eb np cur; exact ⟨_, rfl⟩
  | cons b rest ih =>
    intro v bl eb np cur
    have hmm : makeMask (min 8 eb) 0 =
        some ((2 ^ min 8 eb - 1) <<< (8 - min 8 eb - 0), 8 - min 8 eb - 0) := by
      rw [makeMask, if_neg (show ¬ (min 8 eb + 0 > 8) by omega)]
    dsimp only [bitsReadLoop]
    rw [hmm]
    exact ih _ _ _ _ _

/-- C6 (corrected): `BitStreamReader.read` performs no validation of the
requested size at all (there is no `InvalidArgument` in the code).  For any
state whose bit cursor is in range, `read(n)` fails — with an `IndexError`
from `data[0]` — exactly when the bit position is 0 and the underlying file
is exhausted; the requested size `n` is irrelevant. -/
theorem bitsRead_none_iff (st : BitState) (n : Nat) (hpos : st.position < 8) :
    bitsRead st n = none ↔ (st.position = 0 ∧ st.fileData.length ≤ st.filePos) := by
  obtain ⟨fd, fp, pos, cb, kd, da⟩ := st
  dsimp only at hpos ⊢
  by_cases hp : pos = 0
  · subst hp
    by_cases he : fd.length ≤ fp
    · have hdrop : (fd.drop fp).take 1 = [] := by
        rw [List.drop_eq_nil_of_le he]
        rfl
      rw [bitsRead]
      dsimp only [bsFhRead]
      rw [hdrop]
      simp [he]
    · have hlt : fp < fd.length := by omega
      rw [bitsRead]
      dsimp only [bsFhRead]
      rw [if_pos rfl, drop_take_one fd fp hlt]
      dsimp only
      rw [makeMask, if_neg (show ¬ (n ⊓ 8 + 0 > 8) by omega)]
      dsimp only
      obtain ⟨⟨v2, np2, c2⟩, hr⟩ := bitsReadLoop_total _ _ _ _ _ _
      rw [hr]
      simp [he]
  · rw [bitsRead]
    dsimp only
    rw [if_neg hp]
    dsimp only
    rw [makeMask, if_neg (show ¬ (n ⊓ (8 - pos) + pos > 8) by omega)]
    dsimp only
    obtain ⟨⟨v2, np2, c2⟩, hr⟩ := bitsReadLoop_total _ _ _ _ _ _
    rw [hr]
    simp [hp]

/-- C2 (confirmed): reading `k1, ..., kn` bits in sequence with
`BitStreamReader.read`, where `1 ≤ ki ≤ 32` and `Σ ki ≤ 8·|bytes|`, returns
exactly the values of the consecutive MSB-first chunks of widths `k1, ..., kn`
of the concatenated bit string of the source bytes. -/
theorem bit_reader_chunk_values (data sizes : List Nat)
    (hks : ∀ k ∈ sizes, 1 ≤ k ∧ k ≤ 32)
    (hsum : sizes.sum ≤ 8 * data.length) :
    (bitsReadSeq (initBitState data false) sizes).map Prod.fst =
      some (chunkValues (streamBits data) sizes) := by
  have h0 : BitStateAt data 0 (initBitState data false) :=
    ⟨rfl, rfl, rfl, rfl, rfl, fun h => absurd rfl h⟩
  obtain ⟨st2, h1, _⟩ := bitsReadSeq_bits data sizes 0 (initBitState data false) h0
    (fun x hx => (hks x hx).1) (by omega)
  rw [List.drop_zero] at h1
  rw [h1]
  rfl

theorem bit_reader_chunk_values_witness :
    (∀ k ∈ [3, 5, 6, 2], 1 ≤ k ∧ k ≤ 32) ∧
    ([3, 5, 6, 2] : List Nat).sum ≤ 8 * ([0xB3, 0x5A] : List Nat).length ∧
    (bitsReadSeq (initBitState [0xB3, 0x5A] false) [3, 5, 6, 2]).map Prod.fst =
      some (chunkValues (streamBits [0xB3, 0x5A]) [3, 5, 6, 2]) :=
  ⟨by decide, by decide, bit_reader_chunk_values _ _ (by decide) (by decide)⟩

theorem bitsRead_none_iff_witness :
    ((initBitState [] false).position < 8) ∧
    (bitsRead (initBitState [] false) 5 = none ↔
      ((initBitState [] false).position = 0 ∧
        (initBitState [] false).fileData.length ≤ (initBitState [] false).filePos)) :=
  ⟨by decide, bitsRead_none_iff _ 5 (by decide)⟩

/-- Counterexample to C6 as stated: `read(0)` and `read(40)` both succeed —
the code never raises `InvalidArgument` for `n == 0` or `n > 32`. -/
theorem bitstream_read_no_size_validation :
    (bitsRead (initBitState [0xAB] false) 0).isSome = true ∧
    (bitsRead (initBitState [1, 2, 3, 4, 5] false) 40).isSome = true :=
  ⟨by decide, by decide⟩
